import Mathlib

/-!
Verification of the iso2god binary encoding/decoding engine.

Byte strings are modelled as a length together with a big-endian numeric
value (`Bytes`): byte `i` of `b` is digit `i` (most significant first) of
`b.val` in base 256.  All buffer operations of the source (append, slice,
zero-fill) become arithmetic on `Nat`.
-/

/-- A byte string: `len` bytes whose big-endian base-256 value is `val`.
Well-formedness (`Bytes.wf`) requires `val < 256 ^ len`. -/
structure Bytes where
  len : Nat
  val : Nat
  deriving DecidableEq, Repr

/-- Well-formed byte strings have a value representable in `len` bytes. -/
def Bytes.wf (b : Bytes) : Prop := b.val < 256 ^ b.len

instance (b : Bytes) : Decidable b.wf := by
  unfold Bytes.wf; infer_instance

/-- The empty byte string. -/
def bEmpty : Bytes := ⟨0, 0⟩

/-- `n` zero bytes. -/
def zerosB (n : Nat) : Bytes := ⟨n, 0⟩

/-- Concatenation of two byte strings. -/
def appB (a b : Bytes) : Bytes := ⟨a.len + b.len, a.val * 256 ^ b.len + b.val⟩

/-- The `k`-byte slice of `b` starting at byte offset `i`
(meaningful when `i + k ≤ b.len`). -/
def sliceB (b : Bytes) (i k : Nat) : Bytes :=
  ⟨k, b.val / 256 ^ (b.len - i - k) % 256 ^ k⟩

/-- First `k` bytes of `b` (all of `b` if it is shorter). -/
def takeB (k : Nat) (b : Bytes) : Bytes :=
  if b.len ≤ k then b else sliceB b 0 k

/-- All bytes of `b` from offset `k` on. -/
def dropB (k : Nat) (b : Bytes) : Bytes :=
  if b.len ≤ k then bEmpty else sliceB b k (b.len - k)

/-- Concatenation of a list of byte strings. -/
def concatB : List Bytes → Bytes
  | [] => bEmpty
  | b :: bs => appB b (concatB bs)

/-- Build a byte string from an explicit list of byte values. -/
def ofList : List Nat → Bytes
  | [] => bEmpty
  | x :: xs => appB ⟨1, x % 256⟩ (ofList xs)

theorem zerosB_wf (n : Nat) : (zerosB n).wf := by
  simp [Bytes.wf, zerosB, Nat.pos_pow_of_pos]

theorem bEmpty_wf : bEmpty.wf := zerosB_wf 0

theorem appB_len (a b : Bytes) : (appB a b).len = a.len + b.len := rfl

theorem sliceB_len (b : Bytes) (i k : Nat) : (sliceB b i k).len = k := rfl

theorem appB_wf {a b : Bytes} (ha : a.wf) (hb : b.wf) : (appB a b).wf := by
  unfold Bytes.wf appB at *
  simp only
  have h1 : a.val * 256 ^ b.len + b.val < (a.val + 1) * 256 ^ b.len := by
    rw [Nat.add_mul, Nat.one_mul]
    exact Nat.add_lt_add_left hb _
  have h2 : (a.val + 1) * 256 ^ b.len ≤ 256 ^ a.len * 256 ^ b.len :=
    Nat.mul_le_mul_right _ ha
  calc a.val * 256 ^ b.len + b.val < (a.val + 1) * 256 ^ b.len := h1
    _ ≤ 256 ^ a.len * 256 ^ b.len := h2
    _ = 256 ^ (a.len + b.len) := (pow_add 256 a.len b.len).symm

theorem sliceB_wf (b : Bytes) (i k : Nat) : (sliceB b i k).wf :=
  Nat.mod_lt _ (Nat.pos_pow_of_pos _ (by norm_num))

theorem takeB_wf {b : Bytes} (k : Nat) (hb : b.wf) : (takeB k b).wf := by
  unfold takeB
  split
  · exact hb
  · exact sliceB_wf b 0 k

theorem concatB_wf {bs : List Bytes} (h : ∀ b ∈ bs, b.wf) : (concatB bs).wf := by
  induction bs with
  | nil => exact bEmpty_wf
  | cons x xs ih =>
    exact appB_wf (h x (List.mem_cons_self x xs)) (ih fun b hb => h b (List.mem_cons_of_mem x hb))

theorem concatB_len (bs : List Bytes) :
    (concatB bs).len = (bs.map Bytes.len).sum := by
  induction bs with
  | nil => rfl
  | cons x xs ih => simp [concatB, appB_len, ih]

theorem appB_assoc (a b c : Bytes) : appB (appB a b) c = appB a (appB b c) := by
  unfold appB
  simp only [Bytes.mk.injEq]
  constructor
  · omega
  · rw [pow_add]; ring

theorem appB_bEmpty (a : Bytes) : appB a bEmpty = a := by
  unfold appB bEmpty
  simp

theorem bEmpty_appB (a : Bytes) : appB bEmpty a = a := by
  unfold appB bEmpty
  simp

theorem appB_zerosB_zero (a : Bytes) : appB a (zerosB 0) = a := appB_bEmpty a

/-- Slicing entirely inside the left part of a concatenation. -/
theorem sliceB_appB_left {a : Bytes} (b : Bytes) (hb : b.wf) {i k : Nat}
    (h : i + k ≤ a.len) : sliceB (appB a b) i k = sliceB a i k := by
  unfold sliceB appB
  simp only [Bytes.mk.injEq, true_and]
  have he : a.len + b.len - i - k = b.len + (a.len - i - k) := by omega
  have hdiv : (a.val * 256 ^ b.len + b.val) / 256 ^ b.len = a.val := by
    rw [Nat.add_comm, Nat.add_mul_div_right _ _ (Nat.pos_pow_of_pos _ (by norm_num))]
    rw [Nat.div_eq_of_lt hb, Nat.zero_add]
  rw [he, pow_add, ← Nat.div_div_eq_div_mul, hdiv]

/-- Slicing entirely inside the right part of a concatenation. -/
theorem sliceB_appB_right (a : Bytes) {b : Bytes} {i k : Nat}
    (hi : a.len ≤ i) (h : i + k ≤ a.len + b.len) :
    sliceB (appB a b) i k = sliceB b (i - a.len) k := by
  unfold sliceB appB
  simp only [Bytes.mk.injEq, true_and]
  have he : a.len + b.len - i - k = b.len - (i - a.len) - k := by omega
  rw [he]
  set e := b.len - (i - a.len) - k with hedef
  have hle : e + k ≤ b.len := by omega
  have hsplit : a.val * 256 ^ b.len = a.val * 256 ^ (b.len - e) * 256 ^ e := by
    rw [Nat.mul_assoc, ← pow_add]
    congr 2
    omega
  rw [hsplit, Nat.add_comm, Nat.add_mul_div_right _ _ (Nat.pos_pow_of_pos _ (by norm_num))]
  have hk : (256 : Nat) ^ k ∣ a.val * 256 ^ (b.len - e) := by
    apply Dvd.dvd.mul_left
    exact pow_dvd_pow 256 (by omega)
  obtain ⟨c, hc⟩ := hk
  rw [hc, Nat.mul_comm (256 ^ k) c, Nat.add_mul_mod_self_right]

/-- Forces a natural number to a literal before continuing; keeps kernel
evaluation of accumulator-style recursion shallow. -/
def natCase {α : Sort u} (n : Nat) (k : Nat → α) : α :=
  match n with
  | 0 => k 0
  | m+1 => k (m+1)

theorem natCase_eq {α : Sort u} (n : Nat) (k : Nat → α) : natCase n k = k n := by
  cases n <;> rfl

/-- Forces both fields of a byte string before continuing. -/
def bforce {α : Sort u} (b : Bytes) (k : Bytes → α) : α :=
  natCase b.len fun l => natCase b.val fun v => k ⟨l, v⟩

theorem bforce_eq {α : Sort u} (b : Bytes) (k : Bytes → α) : bforce b k = k b := by
  cases b
  simp [bforce, natCase_eq]

/-- Fuel-driven chunking of a byte string into consecutive `k`-byte slices
starting at `pos`; the last chunk may be shorter.  The fuel argument only
bounds the recursion and is always passed large enough. -/
def chunksBF : Nat → Nat → Bytes → Nat → List Bytes
  | 0, _, _, _ => []
  | fuel+1, k, b, pos =>
    if b.len ≤ pos then []
    else sliceB b pos (min k (b.len - pos)) :: chunksBF fuel k b (pos + k)

/-- All consecutive `k`-byte chunks of `b` (mirrors Rust `slice::chunks`). -/
def chunksB (k : Nat) (b : Bytes) : List Bytes := chunksBF (b.len + 1) k b 0

/-- 32-bit left rotation. -/
def rotl32 (k n : Nat) : Nat := ((n <<< k) ||| (n >>> (32 - k))) % 4294967296

/-- The 16 big-endian 32-bit words of a 64-byte chunk. -/
def chunkWords : Nat → Bytes → Nat → List Nat
  | 0, _, _ => []
  | n+1, c, pos => natCase (sliceB c pos 4).val fun w => w :: chunkWords n c (pos + 4)

/-- SHA-1 message-schedule extension, keeping the word list newest-first. -/
def sha1ExtendRev : Nat → List Nat → List Nat
  | 0, w => w
  | n+1, w =>
    natCase (rotl32 1 ((((w.getD 2 0) ^^^ (w.getD 7 0)) ^^^ (w.getD 13 0)) ^^^ (w.getD 15 0)))
      fun x => sha1ExtendRev n (x :: w)

def sha1F (i b c d : Nat) : Nat :=
  if i < 20 then (b &&& c) ||| ((b ^^^ 4294967295) &&& d)
  else if i < 40 then (b ^^^ c) ^^^ d
  else if i < 60 then ((b &&& c) ||| (b &&& d)) ||| (c &&& d)
  else (b ^^^ c) ^^^ d

def sha1K (i : Nat) : Nat :=
  if i < 20 then 0x5A827999 else if i < 40 then 0x6ED9EBA1
  else if i < 60 then 0x8F1BBCDC else 0xCA62C1D6

def sha1Rounds : Nat → List Nat → Nat × Nat × Nat × Nat × Nat → Nat × Nat × Nat × Nat × Nat
  | _, [], st => st
  | i, w :: ws, (a, b, c, d, e) =>
    natCase ((rotl32 5 a + sha1F i b c d + e + sha1K i + w) % 4294967296) fun t =>
    natCase (rotl32 30 b) fun b2 =>
    sha1Rounds (i+1) ws (t, a, b2, c, d)

def sha1Compress (h : Nat × Nat × Nat × Nat × Nat) (chunk : Bytes) :
    Nat × Nat × Nat × Nat × Nat :=
  let ws := (sha1ExtendRev 64 (chunkWords 16 chunk 0).reverse).reverse
  match h, sha1Rounds 0 ws h with
  | (h0, h1, h2, h3, h4), (a, b, c, d, e) =>
    natCase ((h0 + a) % 4294967296) fun r0 =>
    natCase ((h1 + b) % 4294967296) fun r1 =>
    natCase ((h2 + c) % 4294967296) fun r2 =>
    natCase ((h3 + d) % 4294967296) fun r3 =>
    natCase ((h4 + e) % 4294967296) fun r4 =>
    (r0, r1, r2, r3, r4)

/-- Chunk-wise folding of the compression function, forcing the state
at every step. -/
def sha1Fold : List Bytes → Nat × Nat × Nat × Nat × Nat → Nat × Nat × Nat × Nat × Nat
  | [], h => h
  | c :: cs, h =>
    match sha1Compress h c with
    | (r0, r1, r2, r3, r4) => sha1Fold cs (r0, r1, r2, r3, r4)

/-- SHA-1 padding: byte 0x80, zeros to 56 mod 64, then the bit length as
8 bytes big-endian (the length is a u64 in the padding rule). -/
def sha1PadB (msg : Bytes) : Bytes :=
  natCase (msg.len % 64) fun r =>
  natCase (if r < 56 then 55 - r else 119 - r) fun z =>
  appB msg (appB ⟨1, 128⟩ (appB (zerosB z) ⟨8, msg.len * 8 % 18446744073709551616⟩))

def sha1InitState : Nat × Nat × Nat × Nat × Nat :=
  (0x67452301, 0xEFCDAB89, 0x98BADCFE, 0x10325476, 0xC3D2E1F0)

/-- SHA-1 digest of a byte string, as a 20-byte string. -/
def sha1B (msg : Bytes) : Bytes :=
  match sha1Fold (chunksB 64 (sha1PadB msg)) sha1InitState with
  | (h0, h1, h2, h3, h4) =>
    natCase (((((h0 * 4294967296 + h1) * 4294967296 + h2) * 4294967296 + h3) * 4294967296 + h4)
        % 1461501637330902918203684832716283019655932542976) fun v =>
    ⟨20, v⟩

theorem sha1B_len (msg : Bytes) : (sha1B msg).len = 20 := by
  unfold sha1B
  split
  rw [natCase_eq]

theorem sha1B_wf (msg : Bytes) : (sha1B msg).wf := by
  unfold sha1B
  split
  rw [natCase_eq]
  exact Nat.mod_lt _ (by norm_num)

/-!
`src/god/hash_list.rs`: a hash list is a growable buffer of 20-byte SHA-1
digests, padded with zeros to 4096 bytes when serialized.
-/

structure HashList where
  buffer : Bytes
  deriving DecidableEq, Repr

/-- `HashList::new`. -/
def HashList.new : HashList := ⟨bEmpty⟩

/-- `HashList::add_hash`: append a 20-byte hash to the buffer. -/
def HashList.addHash (hl : HashList) (h : Bytes) : HashList :=
  ⟨appB hl.buffer h⟩

/-- `HashList::add_block_hash`: append the SHA-1 digest of `block`. -/
def HashList.addBlockHash (hl : HashList) (block : Bytes) : HashList :=
  hl.addHash (sha1B block)

/-- `HashList::to_bytes`: the buffer resized to exactly 4096 bytes
(zero-extended when shorter, truncated when longer). -/
def HashList.toBytes (hl : HashList) : Bytes :=
  appB (takeB 4096 hl.buffer) (zerosB (4096 - hl.buffer.len))

/-- `HashList::digest`: SHA-1 of the full 4096-byte serialized buffer. -/
def HashList.digest (hl : HashList) : Bytes := sha1B hl.toBytes

/-- `HashList::write`: the bytes written are the 4096-byte serialization. -/
def HashList.write (hl : HashList) : Bytes := hl.toBytes

/-- Scanning loop of `HashList::read`: read 20-byte chunks (the last may be
shorter), stop at an empty or all-zero chunk, collect the rest.  The fuel
bounds the recursion: positions advance by 20 within a ≤ 4096-byte input,
so 206 iterations always suffice to reach the stopping step. -/
def HashList.readGo : Nat → Bytes → Nat → Bytes → Bytes
  | 0, _, _, acc => acc
  | fuel+1, d, pos, acc =>
    natCase (min (d.len - pos) 20) fun t =>
    if t = 0 then acc
    else
      natCase (sliceB d pos t).val fun v =>
      if v = 0 then acc
      else bforce (appB acc (sliceB d pos t)) fun acc2 => HashList.readGo fuel d (pos + t) acc2

/-- `HashList::read`: take at most 4096 bytes and collect the leading
nonzero 20-byte chunks. -/
def HashList.read (d : Bytes) : HashList :=
  ⟨HashList.readGo 206 (takeB 4096 d) 0 bEmpty⟩

/-!
`src/god/mod.rs`: the part writer.
-/

def BLOCK_SIZE : Nat := 0x1000

def BLOCKS_PER_PART : Nat := 0xa1c4

def BLOCKS_PER_SUBPART : Nat := 0xcc

def SUBPARTS_PER_PART : Nat := 0xcb

def SUBPART_SIZE : Nat := BLOCK_SIZE * BLOCKS_PER_SUBPART

/-- The subpart hash list: one SHA-1 entry per `BLOCK_SIZE` chunk of the
subpart's data (`for block in subpart_buf.chunks(BLOCK_SIZE)`). -/
def subHashListOf (buf : Bytes) : HashList :=
  (chunksB BLOCK_SIZE buf).foldl HashList.addBlockHash HashList.new

/-- The subpart loop of `write_part`.  Each iteration reads up to
`SUBPART_SIZE` bytes from the source at `pos`; an empty read stops the
loop, a short read finishes the current subpart and then stops.  The
output file is the master hash list serialization followed by, per
subpart, the subpart hash list serialization and the subpart's data. -/
def writePartGo (src : Bytes) : Nat → Nat → HashList → Bytes → Bytes
  | 0, _, master, body => appB master.toBytes body
  | fuel+1, pos, master, body =>
    let t := min (src.len - pos) SUBPART_SIZE
    if t = 0 then appB master.toBytes body
    else
      let buf := sliceB src pos t
      let sub := subHashListOf buf
      let master2 := master.addBlockHash sub.toBytes
      let body2 := appB body (appB sub.toBytes buf)
      if t < SUBPART_SIZE then appB master2.toBytes body2
      else writePartGo src fuel (pos + t) master2 body2

/-- `write_part`: seek the source to this part's byte range, then write up
to `SUBPARTS_PER_PART` subparts. -/
def writePart (src : Bytes) (partIndex : Nat) : Bytes :=
  writePartGo src SUBPARTS_PER_PART (partIndex * (BLOCKS_PER_PART * BLOCK_SIZE)) HashList.new bEmpty

/-- Specification-side decomposition of the subpart loop: the list of data
slices consumed per subpart. -/
def partSubparts (src : Bytes) : Nat → Nat → List Bytes
  | 0, _ => []
  | fuel+1, pos =>
    let t := min (src.len - pos) SUBPART_SIZE
    if t = 0 then []
    else if t < SUBPART_SIZE then [sliceB src pos t]
    else sliceB src pos t :: partSubparts src fuel (pos + t)

/-!
`src/bin/iso2god.rs`, the MHT chain pass: iterate from the last part to
the first, appending the digest of part `k+1`'s master hash list to part
`k`'s master hash list and rewriting it.
-/

/-- One backward step sequence of the chain pass.  The input list holds the
master-hash-list regions of parts `k, k-1, ..., 0` (reverse file order);
`mht` is the already-processed hash list of part `k+1`. -/
def chainStep : HashList → List Bytes → List Bytes
  | _, [] => []
  | mht, p :: rest =>
    let prev := HashList.read p
    let prev2 := prev.addHash mht.digest
    prev2.toBytes :: chainStep prev2 rest

/-- The full backward chain pass over the parts' master-hash-list regions
(in file order).  The last part is only read, never rewritten. -/
def chainPass (parts : List Bytes) : List Bytes :=
  match parts.reverse with
  | [] => []
  | last :: front => (chainStep (HashList.read last) front).reverse ++ [last]

theorem sliceB_full {b : Bytes} (hb : b.wf) : sliceB b 0 b.len = b := by
  unfold sliceB
  cases b with
  | mk l v =>
    simp only [Bytes.mk.injEq, true_and]
    simp only [Nat.sub_zero, Nat.sub_self, pow_zero, Nat.div_one]
    exact Nat.mod_eq_of_lt hb

theorem sliceB_zerosB (n i k : Nat) : sliceB (zerosB n) i k = zerosB k := by
  simp [sliceB, zerosB]

theorem takeB_of_le {b : Bytes} {k : Nat} (h : b.len ≤ k) : takeB k b = b := by
  simp [takeB, h]

theorem concatB_append (xs ys : List Bytes) :
    concatB (xs ++ ys) = appB (concatB xs) (concatB ys) := by
  induction xs with
  | nil => simp [concatB, bEmpty_appB]
  | cons x xs ih => simp [concatB, ih, appB_assoc]

/-- A slice spanning the whole left part of a concatenation and `k` bytes
of the right part. -/
theorem sliceB_appB_span {a b : Bytes} (ha : a.wf) (hb : b.wf) {k : Nat}
    (hk : k ≤ b.len) : sliceB (appB a b) 0 (a.len + k) = appB a (sliceB b 0 k) := by
  unfold sliceB appB
  simp only [Bytes.mk.injEq, true_and, Nat.sub_zero]
  have he : a.len + b.len - (a.len + k) = b.len - k := by omega
  rw [he]
  have hsplit : a.val * 256 ^ b.len = a.val * 256 ^ k * 256 ^ (b.len - k) := by
    rw [Nat.mul_assoc, ← pow_add]
    congr 2
    omega
  rw [hsplit, Nat.add_comm, Nat.add_mul_div_right _ _ (Nat.pos_pow_of_pos _ (by norm_num))]
  have hbk : b.val / 256 ^ (b.len - k) < 256 ^ k := by
    apply Nat.div_lt_of_lt_mul
    have hsum : 256 ^ (b.len - k) * 256 ^ k = 256 ^ b.len := by
      rw [← pow_add]
      congr 1
      omega
    rw [hsum]
    exact hb
  have hlt : b.val / 256 ^ (b.len - k) + a.val * 256 ^ k < 256 ^ (a.len + k) := by
    have h1 : a.val * 256 ^ k + 256 ^ k ≤ 256 ^ a.len * 256 ^ k := by
      have := Nat.succ_le_of_lt ha
      calc a.val * 256 ^ k + 256 ^ k = (a.val + 1) * 256 ^ k := by ring
        _ ≤ 256 ^ a.len * 256 ^ k := Nat.mul_le_mul_right _ this
    calc b.val / 256 ^ (b.len - k) + a.val * 256 ^ k
        < 256 ^ k + a.val * 256 ^ k := by omega
      _ = a.val * 256 ^ k + 256 ^ k := by ring
      _ ≤ 256 ^ a.len * 256 ^ k := h1
      _ = 256 ^ (a.len + k) := (pow_add 256 a.len k).symm
  rw [Nat.mod_eq_of_lt hlt, Nat.mod_eq_of_lt hbk]
  ring

theorem concatB_len_of_uniform {es : List Bytes} {k : Nat}
    (h : ∀ e ∈ es, e.len = k) : (concatB es).len = k * es.length := by
  induction es with
  | nil => simp [concatB, bEmpty]
  | cons e es ih =>
    have he := h e (List.mem_cons_self e es)
    have ih2 := ih fun x hx => h x (List.mem_cons_of_mem e hx)
    simp [concatB, appB_len, he, ih2]
    ring

theorem HashList.toBytes_len (hl : HashList) : hl.toBytes.len = 4096 := by
  unfold HashList.toBytes takeB
  split <;> (simp [appB_len, zerosB, sliceB_len]; omega)

theorem HashList.toBytes_wf {hl : HashList} (h : hl.buffer.wf) : hl.toBytes.wf :=
  appB_wf (takeB_wf _ h) (zerosB_wf _)

theorem HashList.addBlockHash_wf {hl : HashList} (h : hl.buffer.wf) (b : Bytes) :
    (hl.addBlockHash b).buffer.wf :=
  appB_wf h (sha1B_wf b)

theorem foldl_addBlockHash_wf (bs : List Bytes) :
    ∀ hl : HashList, hl.buffer.wf → ((bs.foldl HashList.addBlockHash hl).buffer).wf := by
  induction bs with
  | nil => intro hl h; exact h
  | cons b bs ih =>
    intro hl h
    exact ih _ (HashList.addBlockHash_wf h b)

theorem subHashListOf_wf (buf : Bytes) : (subHashListOf buf).buffer.wf :=
  foldl_addBlockHash_wf _ HashList.new bEmpty_wf

theorem readGo_succ (fuel : Nat) (d : Bytes) (pos : Nat) (acc : Bytes) :
    HashList.readGo (fuel+1) d pos acc =
      if min (d.len - pos) 20 = 0 then acc
      else if (sliceB d pos (min (d.len - pos) 20)).val = 0 then acc
      else HashList.readGo fuel d (pos + min (d.len - pos) 20)
        (appB acc (sliceB d pos (min (d.len - pos) 20))) := by
  simp only [HashList.readGo, natCase_eq, bforce_eq]

/-- The entry conditions under which `HashList::read` recovers stored
hashes: each is exactly 20 bytes, well-formed, and not all zero. -/
def goodHashes (es : List Bytes) : Prop :=
  ∀ e ∈ es, e.len = 20 ∧ e.wf ∧ 0 < e.val

instance (es : List Bytes) : Decidable (goodHashes es) := by
  unfold goodHashes Bytes.wf; infer_instance

theorem readGo_spec_zeros (es : List Bytes) :
    ∀ (fuel : Nat) (pre acc : Bytes) (z : Nat), es.length < fuel → goodHashes es →
    HashList.readGo fuel (appB pre (appB (concatB es) (zerosB z))) pre.len acc
      = appB acc (concatB es) := by
  induction es with
  | nil =>
    intro fuel pre acc z hfuel hes
    obtain ⟨f, rfl⟩ : ∃ f, fuel = f + 1 := ⟨fuel - 1, by omega⟩
    rw [show concatB [] = bEmpty from rfl, bEmpty_appB, appB_bEmpty, readGo_succ]
    have hlen : (appB pre (zerosB z)).len - pre.len = z := by
      simp [appB_len, zerosB]
    rw [hlen]
    by_cases hz : min z 20 = 0
    · rw [if_pos hz]
    · rw [if_neg hz]
      have hslice : sliceB (appB pre (zerosB z)) pre.len (min z 20) = zerosB (min z 20) := by
        rw [sliceB_appB_right pre (le_refl _) (by simp only [appB_len, zerosB]; omega)]
        rw [Nat.sub_self, sliceB_zerosB]
      rw [hslice]
      simp [zerosB]
  | cons e es ih =>
    intro fuel pre acc z hfuel hes
    obtain ⟨f, rfl⟩ : ∃ f, fuel = f + 1 := ⟨fuel - 1, by omega⟩
    obtain ⟨he20, hewf, hepos⟩ := hes e (List.mem_cons_self e es)
    have hes' : goodHashes es := fun x hx => hes x (List.mem_cons_of_mem e hx)
    have hcwf : (concatB es).wf := concatB_wf fun x hx => (hes' x hx).2.1
    have hclen : (concatB es).len = 20 * es.length :=
      concatB_len_of_uniform fun x hx => (hes' x hx).1
    have hrest : concatB (e :: es) = appB e (concatB es) := rfl
    have hd : appB pre (appB (concatB (e :: es)) (zerosB z))
        = appB pre (appB e (appB (concatB es) (zerosB z))) := by
      rw [hrest, appB_assoc]
    rw [hd, readGo_succ]
    have hdlen : (appB pre (appB e (appB (concatB es) (zerosB z)))).len - pre.len
        = 20 + (20 * es.length + z) := by
      simp [appB_len, zerosB, he20, hclen]
    rw [hdlen]
    have hmin : min (20 + (20 * es.length + z)) 20 = 20 := by omega
    rw [hmin]
    rw [if_neg (by omega)]
    have hslice : sliceB (appB pre (appB e (appB (concatB es) (zerosB z)))) pre.len 20 = e := by
      rw [sliceB_appB_right pre (le_refl _) (by simp only [appB_len, zerosB]; omega)]
      rw [Nat.sub_self]
      rw [sliceB_appB_left _ (appB_wf hcwf (zerosB_wf z)) (by omega : 0 + 20 ≤ e.len)]
      rw [show (20 : Nat) = e.len from he20.symm, sliceB_full hewf]
    rw [hslice]
    rw [if_neg (by omega)]
    have hpre' : pre.len + 20 = (appB pre e).len := by
      simp [appB_len, he20]
    have hd2 : appB pre (appB e (appB (concatB es) (zerosB z)))
        = appB (appB pre e) (appB (concatB es) (zerosB z)) := by
      rw [appB_assoc]
    have hfuel' : es.length < f := by
      simp only [List.length_cons] at hfuel
      omega
    rw [hpre', hd2, ih f (appB pre e) (appB acc e) z hfuel' hes']
    rw [hrest, ← appB_assoc]

theorem readGo_spec_frag (es : List Bytes) :
    ∀ (fuel : Nat) (pre acc frag : Bytes), es.length + 1 < fuel →
    frag.len < 20 → frag.wf → goodHashes es →
    HashList.readGo fuel (appB pre (appB (concatB es) frag)) pre.len acc
      = if frag.val = 0 then appB acc (concatB es) else appB acc (appB (concatB es) frag) := by
  induction es with
  | nil =>
    intro fuel pre acc frag hfuel hflen hfwf hes
    obtain ⟨f, rfl⟩ : ∃ f, fuel = f + 1 := ⟨fuel - 1, by omega⟩
    rw [show concatB [] = bEmpty from rfl, bEmpty_appB] at *
    rw [readGo_succ]
    have hlen : (appB pre frag).len - pre.len = frag.len := by
      simp only [appB_len]
      omega
    rw [hlen]
    by_cases hz : frag.len = 0
    · rw [if_pos (by omega)]
      have hfv : frag.val = 0 := by
        have := hfwf
        unfold Bytes.wf at this
        rw [hz] at this
        simpa using this
      rw [if_pos hfv, appB_bEmpty]
    · have hmin : min frag.len 20 = frag.len := by omega
      rw [hmin, if_neg hz]
      have hslice : sliceB (appB pre frag) pre.len frag.len = frag := by
        rw [sliceB_appB_right pre (le_refl _) (by omega)]
        rw [Nat.sub_self, sliceB_full hfwf]
      rw [hslice]
      by_cases hfv : frag.val = 0
      · rw [if_pos hfv, if_pos hfv, appB_bEmpty]
      · rw [if_neg hfv, if_neg hfv]
        obtain ⟨f2, rfl⟩ : ∃ f2, f = f2 + 1 := ⟨f - 1, by omega⟩
        rw [readGo_succ]
        have hlen2 : (appB pre frag).len - (pre.len + frag.len) = 0 := by
          simp only [appB_len]; omega
        rw [hlen2]
        rw [if_pos (by omega)]
  | cons e es ih =>
    intro fuel pre acc frag hfuel hflen hfwf hes
    obtain ⟨f, rfl⟩ : ∃ f, fuel = f + 1 := ⟨fuel - 1, by omega⟩
    obtain ⟨he20, hewf, hepos⟩ := hes e (List.mem_cons_self e es)
    have hes' : goodHashes es := fun x hx => hes x (List.mem_cons_of_mem e hx)
    have hcwf : (concatB es).wf := concatB_wf fun x hx => (hes' x hx).2.1
    have hclen : (concatB es).len = 20 * es.length :=
      concatB_len_of_uniform fun x hx => (hes' x hx).1
    have hrest : concatB (e :: es) = appB e (concatB es) := rfl
    have hd : appB pre (appB (concatB (e :: es)) frag)
        = appB pre (appB e (appB (concatB es) frag)) := by
      rw [hrest, appB_assoc]
    rw [hd, readGo_succ]
    have hdlen : (appB pre (appB e (appB (concatB es) frag))).len - pre.len
        = 20 + (20 * es.length + frag.len) := by
      simp [appB_len, he20, hclen]
    rw [hdlen]
    have hmin : min (20 + (20 * es.length + frag.len)) 20 = 20 := by omega
    rw [hmin]
    rw [if_neg (by omega)]
    have hslice : sliceB (appB pre (appB e (appB (concatB es) frag))) pre.len 20 = e := by
      rw [sliceB_appB_right pre (le_refl _) (by simp only [appB_len]; omega)]
      rw [Nat.sub_self]
      rw [sliceB_appB_left _ (appB_wf hcwf hfwf) (by omega : 0 + 20 ≤ e.len)]
      rw [show (20 : Nat) = e.len from he20.symm, sliceB_full hewf]
    rw [hslice]
    rw [if_neg (by omega)]
    have hfuel' : es.length + 1 < f := by
      simp only [List.length_cons] at hfuel
      omega
    have hpre' : pre.len + 20 = (appB pre e).len := by
      simp [appB_len, he20]
    have hd2 : appB pre (appB e (appB (concatB es) frag))
        = appB (appB pre e) (appB (concatB es) frag) := by
      rw [appB_assoc]
    rw [hpre', hd2, ih f (appB pre e) (appB acc e) frag hfuel' hflen hfwf hes']
    rw [hrest]
    by_cases hfv : frag.val = 0
    · rw [if_pos hfv, if_pos hfv, appB_assoc]
    · rw [if_neg hfv, if_neg hfv, appB_assoc acc e (appB (concatB es) frag),
        appB_assoc e (concatB es) frag]

theorem goodHashes_take (es : List Bytes) (n : Nat) (h : goodHashes es) :
    goodHashes (es.take n) :=
  fun e he => h e (List.take_subset n es he)

theorem goodHashes_drop (es : List Bytes) (n : Nat) (h : goodHashes es) :
    goodHashes (es.drop n) :=
  fun e he => h e (List.drop_subset n es he)

theorem readGo_spec_zeros0 (es : List Bytes) (fuel z : Nat)
    (hfuel : es.length < fuel) (hes : goodHashes es) :
    HashList.readGo fuel (appB (concatB es) (zerosB z)) 0 bEmpty = concatB es := by
  have h := readGo_spec_zeros es fuel bEmpty bEmpty z hfuel hes
  rw [bEmpty_appB] at h
  rw [bEmpty_appB] at h
  exact h

theorem readGo_spec_frag0 (es : List Bytes) (fuel : Nat) (frag : Bytes)
    (hfuel : es.length + 1 < fuel) (hflen : frag.len < 20) (hfwf : frag.wf)
    (hes : goodHashes es) :
    HashList.readGo fuel (appB (concatB es) frag) 0 bEmpty
      = if frag.val = 0 then concatB es else appB (concatB es) frag := by
  have h := readGo_spec_frag es fuel bEmpty bEmpty frag hfuel hflen hfwf hes
  rw [bEmpty_appB] at h
  rw [bEmpty_appB] at h
  exact h

/-- Round-trip of `HashList::write` then `HashList::read` preserves the
serialized 4096-byte buffer whenever the stored hashes are nonzero. -/
theorem hashList_roundtrip_toBytes (hl : HashList) (es : List Bytes)
    (hbuf : hl.buffer = concatB es) (hes : goodHashes es) :
    (HashList.read (HashList.write hl)).toBytes = hl.toBytes := by
  have hblen : hl.buffer.len = 20 * es.length := by
    rw [hbuf]
    exact concatB_len_of_uniform fun x hx => (hes x hx).1
  have htb4096 : hl.toBytes.len = 4096 := HashList.toBytes_len hl
  have hread : HashList.read (HashList.write hl)
      = ⟨HashList.readGo 206 hl.toBytes 0 bEmpty⟩ := by
    unfold HashList.read HashList.write
    rw [takeB_of_le (by omega)]
  by_cases hn : es.length ≤ 204
  · -- the buffer fits: the padding is scanned as an all-zero chunk
    have htb : hl.toBytes = appB hl.buffer (zerosB (4096 - hl.buffer.len)) := by
      unfold HashList.toBytes
      rw [takeB_of_le (by omega)]
    have hrg : HashList.readGo 206 hl.toBytes 0 bEmpty = concatB es := by
      rw [htb, hbuf, readGo_spec_zeros0 es 206 _ (by omega) hes]
    rw [hread, hrg, ← hbuf]
  · -- more than 204 hashes: the write truncates to 4096 bytes
    push_neg at hn
    have hsplit : es = es.take 204 ++ es.drop 204 := (List.take_append_drop 204 es).symm
    cases hdrop : es.drop 204 with
    | nil =>
      exfalso
      have := congrArg List.length hdrop
      simp at this
      omega
    | cons e0 rest =>
      have he0 := goodHashes_drop es 204 hes e0 (by rw [hdrop]; exact List.mem_cons_self _ _)
      obtain ⟨he020, he0wf, he0pos⟩ := he0
      have hgt : goodHashes (es.take 204) := goodHashes_take es 204 hes
      have hgr : goodHashes rest := by
        intro x hx
        exact goodHashes_drop es 204 hes x (by rw [hdrop]; exact List.mem_cons_of_mem _ hx)
      have hAwf : (concatB (es.take 204)).wf := concatB_wf fun x hx => (hgt x hx).2.1
      have hAlen : (concatB (es.take 204)).len = 4080 := by
        rw [concatB_len_of_uniform fun x hx => (hgt x hx).1]
        rw [List.length_take]
        omega
      have hBwf : (concatB (e0 :: rest)).wf :=
        concatB_wf (by
          intro x hx
          rcases List.mem_cons.mp hx with h | h
          · subst h; exact he0wf
          · exact (hgr x h).2.1)
      have hCwf : (concatB rest).wf := concatB_wf fun x hx => (hgr x hx).2.1
      have hcat : hl.buffer = appB (concatB (es.take 204)) (concatB (e0 :: rest)) := by
        rw [hbuf]
        conv_lhs => rw [hsplit]
        rw [concatB_append, hdrop]
      have hfraglen : (sliceB e0 0 16).len = 16 := rfl
      have hfragwf : (sliceB e0 0 16).wf := sliceB_wf e0 0 16
      have htake : takeB 4096 hl.buffer = appB (concatB (es.take 204)) (sliceB e0 0 16) := by
        unfold takeB
        rw [if_neg (by omega)]
        rw [hcat]
        have h4096 : (4096 : Nat) = (concatB (es.take 204)).len + 16 := by omega
        rw [h4096, sliceB_appB_span hAwf hBwf (by
          rw [concatB_len_of_uniform (by
            intro x hx
            rcases List.mem_cons.mp hx with h | h
            · subst h; exact he020
            · exact (hgr x h).1)]
          simp
          omega)]
        congr 1
        rw [show concatB (e0 :: rest) = appB e0 (concatB rest) from rfl]
        rw [sliceB_appB_left _ hCwf (by omega : 0 + 16 ≤ e0.len)]
      have htb : hl.toBytes = appB (concatB (es.take 204)) (sliceB e0 0 16) := by
        unfold HashList.toBytes
        rw [htake, show 4096 - hl.buffer.len = 0 from by omega, appB_zerosB_zero]
      have htake204 : (es.take 204).length = 204 := by
        rw [List.length_take]
        omega
      have hrg : HashList.readGo 206 hl.toBytes 0 bEmpty
          = if (sliceB e0 0 16).val = 0 then concatB (es.take 204)
            else appB (concatB (es.take 204)) (sliceB e0 0 16) := by
        rw [htb, readGo_spec_frag0 (es.take 204) 206 (sliceB e0 0 16)
          (by rw [htake204]; omega) (by rw [hfraglen]; omega) hfragwf hgt]
      rw [hread, hrg]
      by_cases hfv : (sliceB e0 0 16).val = 0
      · rw [if_pos hfv, htb]
        show appB (takeB 4096 (concatB (es.take 204)))
            (zerosB (4096 - (concatB (es.take 204)).len))
          = appB (concatB (es.take 204)) (sliceB e0 0 16)
        rw [takeB_of_le (by rw [hAlen]; omega), hAlen]
        have hfz : sliceB e0 0 16 = zerosB 16 := by
          cases hfe : sliceB e0 0 16 with
          | mk l v =>
            have hl16 : l = 16 := by
              have := congrArg Bytes.len hfe
              simpa using this.symm
            have hv0 : v = 0 := by
              have h2 := congrArg Bytes.val hfe
              rw [hfe] at hfv
              exact hfv
            rw [hl16, hv0]
            rfl
        rw [hfz]
      · rw [if_neg hfv, htb]
        show appB (takeB 4096 (appB (concatB (es.take 204)) (sliceB e0 0 16)))
            (zerosB (4096 - (appB (concatB (es.take 204)) (sliceB e0 0 16)).len))
          = appB (concatB (es.take 204)) (sliceB e0 0 16)
        have hlen46 : (appB (concatB (es.take 204)) (sliceB e0 0 16)).len = 4096 := by
          simp only [appB_len, hAlen, hfraglen]
        rw [takeB_of_le (le_of_eq hlen46), hlen46, Nat.sub_self, appB_zerosB_zero]

/-- C8 (amended): for every HashList whose buffer is a concatenation of
20-byte, well-formed, nonzero hashes (any count, including past the
4096-byte capacity), `HashList::write` followed by `HashList::read` on
the written 4096-byte buffer yields a HashList whose `digest()` equals
the original's `digest()`. -/
theorem hashList_write_read_digest (hl : HashList) (es : List Bytes)
    (hbuf : hl.buffer = concatB es) (hes : goodHashes es) :
    (HashList.read (HashList.write hl)).digest = hl.digest := by
  unfold HashList.digest
  rw [hashList_roundtrip_toBytes hl es hbuf hes]

set_option exponentiation.threshold 2000000 in
set_option maxHeartbeats 4000000 in
set_option maxRecDepth 4000 in
/-- C8 counterexample: the claim fails as stated for every HashList.  A
buffer holding the all-zero hash followed by a nonzero hash (40 bytes of
value 1) reads back empty, changing the digest. -/
theorem hashList_write_read_digest_cex :
    (HashList.read (HashList.write (HashList.mk ⟨40, 1⟩))).digest
      ≠ (HashList.mk ⟨40, 1⟩).digest := by
  decide

set_option exponentiation.threshold 2000000 in
/-- Witness for the amended C8 at a concrete two-hash list. -/
theorem hashList_write_read_digest_witness :
    (HashList.mk (concatB [⟨20, 1⟩, ⟨20, 2⟩])).buffer = concatB [⟨20, 1⟩, ⟨20, 2⟩]
    ∧ goodHashes [⟨20, 1⟩, ⟨20, 2⟩]
    ∧ (HashList.read (HashList.write (HashList.mk (concatB [⟨20, 1⟩, ⟨20, 2⟩])))).digest
        = (HashList.mk (concatB [⟨20, 1⟩, ⟨20, 2⟩])).digest :=
  ⟨rfl, by decide, hashList_write_read_digest _ _ rfl (by decide)⟩

theorem writePartGo_succ (src : Bytes) (fuel pos : Nat) (master : HashList) (body : Bytes) :
    writePartGo src (fuel+1) pos master body =
      if min (src.len - pos) SUBPART_SIZE = 0 then appB master.toBytes body
      else if min (src.len - pos) SUBPART_SIZE < SUBPART_SIZE then
        appB (master.addBlockHash
            (subHashListOf (sliceB src pos (min (src.len - pos) SUBPART_SIZE))).toBytes).toBytes
          (appB body (appB
            (subHashListOf (sliceB src pos (min (src.len - pos) SUBPART_SIZE))).toBytes
            (sliceB src pos (min (src.len - pos) SUBPART_SIZE))))
      else writePartGo src fuel (pos + min (src.len - pos) SUBPART_SIZE)
        (master.addBlockHash
          (subHashListOf (sliceB src pos (min (src.len - pos) SUBPART_SIZE))).toBytes)
        (appB body (appB
          (subHashListOf (sliceB src pos (min (src.len - pos) SUBPART_SIZE))).toBytes
          (sliceB src pos (min (src.len - pos) SUBPART_SIZE)))) := rfl

theorem partSubparts_succ (src : Bytes) (fuel pos : Nat) :
    partSubparts src (fuel+1) pos =
      if min (src.len - pos) SUBPART_SIZE = 0 then []
      else if min (src.len - pos) SUBPART_SIZE < SUBPART_SIZE then
        [sliceB src pos (min (src.len - pos) SUBPART_SIZE)]
      else sliceB src pos (min (src.len - pos) SUBPART_SIZE)
        :: partSubparts src fuel (pos + min (src.len - pos) SUBPART_SIZE) := rfl

/-- Structure of the part writer: its output is the serialized master hash
list (one SHA-1 entry per completed subpart, taken over the subpart hash
list's full zero-padded 4096-byte buffer) followed by, per subpart, the
serialized subpart hash list and the subpart's data. -/
theorem writePartGo_spec (src : Bytes) (fuel : Nat) :
    ∀ (pos : Nat) (master : HashList) (body : Bytes),
    writePartGo src fuel pos master body =
      appB (HashList.mk (appB master.buffer
          (concatB ((partSubparts src fuel pos).map
            fun d => sha1B (subHashListOf d).toBytes)))).toBytes
        (appB body (concatB ((partSubparts src fuel pos).map
            fun d => appB (subHashListOf d).toBytes d))) := by
  induction fuel with
  | zero =>
    intro pos master body
    show appB master.toBytes body = _
    rw [show partSubparts src 0 pos = [] from rfl]
    simp only [List.map_nil]
    rw [show concatB [] = bEmpty from rfl, appB_bEmpty, appB_bEmpty]
  | succ f ih =>
    intro pos master body
    rw [writePartGo_succ, partSubparts_succ]
    by_cases ht0 : min (src.len - pos) SUBPART_SIZE = 0
    · rw [if_pos ht0, if_pos ht0]
      simp only [List.map_nil]
      rw [show concatB [] = bEmpty from rfl, appB_bEmpty, appB_bEmpty]
    · rw [if_neg ht0, if_neg ht0]
      by_cases htS : min (src.len - pos) SUBPART_SIZE < SUBPART_SIZE
      · rw [if_pos htS, if_pos htS]
        simp only [List.map_cons, List.map_nil]
        rw [show ∀ x : Bytes, concatB [x] = appB x bEmpty from fun x => rfl]
        rw [appB_bEmpty]
        rw [show ∀ x : Bytes, concatB [x] = appB x bEmpty from fun x => rfl]
        rw [appB_bEmpty]
        rfl
      · rw [if_neg htS, if_neg htS]
        rw [ih]
        simp only [List.map_cons]
        rw [show ∀ (x : Bytes) (L : List Bytes), concatB (x :: L) = appB x (concatB L)
          from fun x L => rfl]
        rw [show ∀ (x : Bytes) (L : List Bytes), concatB (x :: L) = appB x (concatB L)
          from fun x L => rfl]
        simp only [HashList.addBlockHash, HashList.addHash, appB_assoc]

theorem chunksBF_exact {k : Nat} (hk : 0 < k) (q : Nat) :
    ∀ (fuel : Nat) (b : Bytes) (pos : Nat), b.len - pos = k * q → q ≤ fuel →
    (chunksBF fuel k b pos).length = q ∧ ∀ c ∈ chunksBF fuel k b pos, c.len = k := by
  induction q with
  | zero =>
    intro fuel b pos hrem hfuel
    cases fuel with
    | zero =>
      exact ⟨rfl, by intro c hc; simp [chunksBF] at hc⟩
    | succ f =>
      rw [show chunksBF (f+1) k b pos
          = if b.len ≤ pos then []
            else sliceB b pos (min k (b.len - pos)) :: chunksBF f k b (pos + k) from rfl]
      rw [if_pos (by omega)]
      exact ⟨rfl, by intro c hc; simp at hc⟩
  | succ q ih =>
    intro fuel b pos hrem hfuel
    obtain ⟨f, rfl⟩ : ∃ f, fuel = f + 1 := ⟨fuel - 1, by omega⟩
    have hmul : k * (q + 1) = k * q + k := by ring
    have hlt : pos < b.len := by omega
    rw [show chunksBF (f+1) k b pos
        = if b.len ≤ pos then []
          else sliceB b pos (min k (b.len - pos)) :: chunksBF f k b (pos + k) from rfl]
    rw [if_neg (by omega)]
    have hmin : min k (b.len - pos) = k := by omega
    rw [hmin]
    have hrec := ih f b (pos + k) (by omega) (by omega)
    refine ⟨?_, ?_⟩
    · simp [hrec.1]
    · intro c hc
      rcases List.mem_cons.mp hc with h | h
      · rw [h, sliceB_len]
      · exact hrec.2 c h

theorem partSubparts_wf (src : Bytes) :
    ∀ (fuel pos : Nat) (d : Bytes), d ∈ partSubparts src fuel pos → d.wf := by
  intro fuel
  induction fuel with
  | zero =>
    intro pos d hd
    simp [partSubparts] at hd
  | succ f ih =>
    intro pos d hd
    rw [partSubparts_succ] at hd
    by_cases h0 : min (src.len - pos) SUBPART_SIZE = 0
    · rw [if_pos h0] at hd
      simp at hd
    · rw [if_neg h0] at hd
      by_cases hS : min (src.len - pos) SUBPART_SIZE < SUBPART_SIZE
      · rw [if_pos hS] at hd
        simp at hd
        rw [hd]
        exact sliceB_wf _ _ _
      · rw [if_neg hS] at hd
        rcases List.mem_cons.mp hd with h | h
        · rw [h]
          exact sliceB_wf _ _ _
        · exact ih _ d h

theorem subpart_split_of_len (src : Bytes) (hlen : src.len = 0xCC001) :
    partSubparts src SUBPARTS_PER_PART 0 = [sliceB src 0 0xCC000, sliceB src 0xCC000 1] := by
  rw [show SUBPARTS_PER_PART = 202 + 1 from rfl, partSubparts_succ, hlen]
  rw [show min (0xCC001 - 0) SUBPART_SIZE = 0xCC000 from rfl]
  rw [if_neg (by norm_num), if_neg (by norm_num [SUBPART_SIZE, BLOCK_SIZE, BLOCKS_PER_SUBPART])]
  rw [show (202 : Nat) = 201 + 1 from rfl, partSubparts_succ, hlen]
  rw [show min (0xCC001 - (0 + 0xCC000)) SUBPART_SIZE = 1 from rfl]
  rw [if_neg (by norm_num), if_pos (by norm_num [SUBPART_SIZE, BLOCK_SIZE, BLOCKS_PER_SUBPART])]

/-- C2: on a source of exactly `BLOCK_SIZE * BLOCKS_PER_SUBPART + 1` bytes
(0xCC001), `write_part` writes exactly two subparts — subpart 0 with 204
full 4096-byte blocks, subpart 1 with a single 1-byte block — and the part
file ends immediately after that block, with no padding. -/
theorem writePart_two_subparts (src : Bytes) (hlen : src.len = 0xCC001) :
    partSubparts src SUBPARTS_PER_PART 0 = [sliceB src 0 0xCC000, sliceB src 0xCC000 1]
    ∧ (chunksB BLOCK_SIZE (sliceB src 0 0xCC000)).length = 204
    ∧ (∀ c ∈ chunksB BLOCK_SIZE (sliceB src 0 0xCC000), c.len = BLOCK_SIZE)
    ∧ chunksB BLOCK_SIZE (sliceB src 0xCC000 1) = [sliceB src 0xCC000 1]
    ∧ writePart src 0 = appB (HashList.mk (concatB
        [sha1B (subHashListOf (sliceB src 0 0xCC000)).toBytes,
         sha1B (subHashListOf (sliceB src 0xCC000 1)).toBytes])).toBytes
        (appB (appB (subHashListOf (sliceB src 0 0xCC000)).toBytes (sliceB src 0 0xCC000))
          (appB (subHashListOf (sliceB src 0xCC000 1)).toBytes (sliceB src 0xCC000 1)))
    ∧ (writePart src 0).len = 847873 := by
  have hsplit := subpart_split_of_len src hlen
  have hchunks := chunksBF_exact (k := BLOCK_SIZE) (by norm_num [BLOCK_SIZE]) 204
    ((sliceB src 0 0xCC000).len + 1) (sliceB src 0 0xCC000) 0
    (by rw [sliceB_len]; norm_num [BLOCK_SIZE]) (by rw [sliceB_len]; norm_num)
  have hd1 : chunksB BLOCK_SIZE (sliceB src 0xCC000 1) = [sliceB src 0xCC000 1] := by
    rw [show chunksB BLOCK_SIZE (sliceB src 0xCC000 1)
        = chunksBF 2 BLOCK_SIZE (sliceB src 0xCC000 1) 0 from rfl]
    rw [show chunksBF 2 BLOCK_SIZE (sliceB src 0xCC000 1) 0
        = if (sliceB src 0xCC000 1).len ≤ 0 then []
          else sliceB (sliceB src 0xCC000 1) 0
              (min BLOCK_SIZE ((sliceB src 0xCC000 1).len - 0))
            :: chunksBF 1 BLOCK_SIZE (sliceB src 0xCC000 1) (0 + BLOCK_SIZE) from rfl]
    rw [if_neg (by rw [sliceB_len]; norm_num)]
    rw [show chunksBF 1 BLOCK_SIZE (sliceB src 0xCC000 1) (0 + BLOCK_SIZE) = [] from by
      rw [show chunksBF 1 BLOCK_SIZE (sliceB src 0xCC000 1) (0 + BLOCK_SIZE)
          = if (sliceB src 0xCC000 1).len ≤ 0 + BLOCK_SIZE then []
            else sliceB (sliceB src 0xCC000 1) (0 + BLOCK_SIZE)
                (min BLOCK_SIZE ((sliceB src 0xCC000 1).len - (0 + BLOCK_SIZE)))
              :: chunksBF 0 BLOCK_SIZE (sliceB src 0xCC000 1) (0 + BLOCK_SIZE + BLOCK_SIZE)
          from rfl]
      rw [if_pos (by rw [sliceB_len]; norm_num [BLOCK_SIZE])]]
    rw [show min BLOCK_SIZE ((sliceB src 0xCC000 1).len - 0) = 1 from rfl]
    rw [show sliceB (sliceB src 0xCC000 1) 0 1
        = sliceB (sliceB src 0xCC000 1) 0 (sliceB src 0xCC000 1).len from rfl]
    rw [sliceB_full (sliceB_wf src 0xCC000 1)]
  have hwp : writePart src 0 = writePartGo src SUBPARTS_PER_PART 0 HashList.new bEmpty := by
    unfold writePart
    norm_num
  have hout : writePart src 0 = appB (HashList.mk (concatB
      [sha1B (subHashListOf (sliceB src 0 0xCC000)).toBytes,
       sha1B (subHashListOf (sliceB src 0xCC000 1)).toBytes])).toBytes
      (appB (appB (subHashListOf (sliceB src 0 0xCC000)).toBytes (sliceB src 0 0xCC000))
        (appB (subHashListOf (sliceB src 0xCC000 1)).toBytes (sliceB src 0xCC000 1))) := by
    rw [hwp, writePartGo_spec, hsplit]
    simp only [List.map_cons, List.map_nil]
    rw [show ∀ (x y : Bytes), concatB [x, y] = appB x (appB y bEmpty) from fun x y => rfl]
    rw [show HashList.new.buffer = bEmpty from rfl, bEmpty_appB, bEmpty_appB]
    rw [appB_bEmpty]
    rw [show ∀ (x y : Bytes), concatB [x, y] = appB x (appB y bEmpty) from fun x y => rfl]
    rw [appB_bEmpty]
  refine ⟨hsplit, hchunks.1, hchunks.2, hd1, hout, ?_⟩
  rw [hout]
  simp only [appB_len, HashList.toBytes_len, sliceB_len]

/-- Witness for C2 at a concrete all-zero source of 0xCC001 bytes. -/
theorem writePart_two_subparts_witness :
    (zerosB 0xCC001).len = 0xCC001
    ∧ (writePart (zerosB 0xCC001) 0).len = 847873 :=
  ⟨rfl, (writePart_two_subparts (zerosB 0xCC001) rfl).2.2.2.2.2⟩

set_option exponentiation.threshold 2000000 in
set_option maxHeartbeats 4000000 in
set_option maxRecDepth 4000 in
/-- C3: `HashList::digest` hashes the full zero-padded 4096-byte buffer —
shown both as the general equation and, at a concrete hash list, as being
different from the SHA-1 of only the filled part of the buffer — and the
part writer's master hash list holds, per completed subpart, the SHA-1 of
that subpart hash list's full zero-padded 4096-byte buffer. -/
theorem hashList_digest_full_buffer (hl : HashList) (h1 : hl.buffer.len ≤ 4096) :
    hl.digest = sha1B (appB hl.buffer (zerosB (4096 - hl.buffer.len)))
    ∧ (HashList.mk ⟨20, 1⟩).digest ≠ sha1B ⟨20, 1⟩
    ∧ ∀ (src : Bytes) (i : Nat), sliceB (writePart src i) 0 4096
        = (HashList.mk (concatB ((partSubparts src SUBPARTS_PER_PART
            (i * (BLOCKS_PER_PART * BLOCK_SIZE))).map
            fun d => sha1B (subHashListOf d).toBytes))).toBytes := by
  refine ⟨?_, ?_, ?_⟩
  · unfold HashList.digest HashList.toBytes
    rw [takeB_of_le h1]
  · decide
  · intro src i
    rw [show writePart src i = writePartGo src SUBPARTS_PER_PART
        (i * (BLOCKS_PER_PART * BLOCK_SIZE)) HashList.new bEmpty from rfl]
    rw [writePartGo_spec]
    rw [show HashList.new.buffer = bEmpty from rfl, bEmpty_appB, bEmpty_appB]
    have hmwf : (concatB ((partSubparts src SUBPARTS_PER_PART
        (i * (BLOCKS_PER_PART * BLOCK_SIZE))).map
        fun d => sha1B (subHashListOf d).toBytes)).wf := by
      apply concatB_wf
      intro b hb
      rcases List.mem_map.mp hb with ⟨d, _, rfl⟩
      exact sha1B_wf _
    have hbodywf : (concatB ((partSubparts src SUBPARTS_PER_PART
        (i * (BLOCKS_PER_PART * BLOCK_SIZE))).map
        fun d => appB (subHashListOf d).toBytes d)).wf := by
      apply concatB_wf
      intro b hb
      rcases List.mem_map.mp hb with ⟨d, hd, rfl⟩
      exact appB_wf (HashList.toBytes_wf (subHashListOf_wf d)) (partSubparts_wf src _ _ d hd)
    rw [sliceB_appB_left _ hbodywf
      (by rw [HashList.toBytes_len])]
    rw [show (4096 : Nat) = (HashList.mk (concatB ((partSubparts src SUBPARTS_PER_PART
        (i * (BLOCKS_PER_PART * BLOCK_SIZE))).map
        fun d => sha1B (subHashListOf d).toBytes))).toBytes.len
      from (HashList.toBytes_len _).symm]
    rw [sliceB_full (HashList.toBytes_wf hmwf)]

/-- Witness for C3 at a concrete one-hash list. -/
theorem hashList_digest_full_buffer_witness :
    (HashList.mk ⟨20, 1⟩).buffer.len ≤ 4096
    ∧ (HashList.mk ⟨20, 1⟩).digest
        = sha1B (appB (HashList.mk ⟨20, 1⟩).buffer
            (zerosB (4096 - (HashList.mk ⟨20, 1⟩).buffer.len))) :=
  ⟨by decide, (hashList_digest_full_buffer (HashList.mk ⟨20, 1⟩) (by decide)).1⟩

/-- C4 (amended): the backward hash-chain pass leaves a single-part state
unchanged, so it is idempotent only in the one-part case; with two or more
parts each run appends one more digest to every part but the last. -/
theorem chainPass_single_part (p : Bytes) : chainPass [p] = [p] := rfl

set_option exponentiation.threshold 2000000 in
set_option maxHeartbeats 8000000 in
set_option maxRecDepth 4000 in
/-- C4 counterexample: on two already-written parts, a second run of the
backward chain pass appends the last part's digest to part 0 again, so the
master hash lists are not bit-identical to those after the first run. -/
theorem chainPass_not_idempotent_cex :
    chainPass (chainPass [(HashList.mk ⟨20, 1⟩).toBytes, (HashList.mk ⟨20, 2⟩).toBytes])
      ≠ chainPass [(HashList.mk ⟨20, 1⟩).toBytes, (HashList.mk ⟨20, 2⟩).toBytes] := by
  decide

/-!
`src/iso/iso_type.rs` and `src/new/iso.rs`: volume layout detection.
A candidate matches when the 20 bytes at its `root_offset + 0x10000`
equal the GDFX signature; an unreadable range is a non-match.
-/

inductive IsoType where
  | Xgd3
  | Xgd2
  | Xgd1
  | Xsf
  deriving DecidableEq, Repr

/-- `IsoType::root_offset` (`gdfx_volume_offset` / `data_volume_offset`
in the newer modules, same table). -/
def IsoType.rootOffset : IsoType → Nat
  | IsoType.Xgd3 => 0x2080000
  | IsoType.Xgd2 => 0xfd90000
  | IsoType.Xgd1 => 0x18300000
  | IsoType.Xsf => 0

/-- Sector size of the iso module (`iso::SECTOR_SIZE = 0x800`). -/
def ISO_SECTOR_SIZE : Nat := 0x800

/-- The ASCII signature `MICROSOFT*XBOX*MEDIA`. -/
def GDFX_MAGIC : Bytes :=
  ofList [77, 73, 67, 82, 79, 83, 79, 70, 84, 42, 88, 66, 79, 88, 42, 77, 69, 68, 73, 65]

/-- Seek to `pos` and read exactly `k` bytes; a stream shorter than the
requested range gives `none` (Rust `read_exact` with `UnexpectedEof`). -/
def readExactAt (data : Bytes) (pos k : Nat) : Option Bytes :=
  if pos + k ≤ data.len then some (sliceB data pos k) else none

/-- `IsoType::check`: read 20 bytes at `0x20 * SECTOR_SIZE + root_offset`
and compare with the signature; an unreadable range is `false`. -/
def IsoType.check (data : Bytes) (t : IsoType) : Bool :=
  match readExactAt data (0x20 * ISO_SECTOR_SIZE + t.rootOffset) 20 with
  | some b => if b = GDFX_MAGIC then true else false
  | none => false

/-- `IsoType::read`: probe Xsf, Xgd2, Xgd1, Xgd3 in order; with no match
return `None` (the original C# code fell back to Xgd3 instead — the Rust
code dropped that fallback). -/
def IsoType.read (data : Bytes) : Option IsoType :=
  if IsoType.check data IsoType.Xsf then some IsoType.Xsf
  else if IsoType.check data IsoType.Xgd2 then some IsoType.Xgd2
  else if IsoType.check data IsoType.Xgd1 then some IsoType.Xgd1
  else if IsoType.check data IsoType.Xgd3 then some IsoType.Xgd3
  else none

/-- Probe loop of `Iso::read_from_range` in `src/new/iso.rs`. -/
def isoDetectGo (data : Bytes) : List IsoType → Option IsoType
  | [] => none
  | t :: ts => if IsoType.check data t then some t else isoDetectGo data ts

/-- `Iso::ALL_SUPPORTED` (priority order of `src/new/iso.rs`). -/
def ISO_ALL_SUPPORTED : List IsoType :=
  [IsoType.Xgd3, IsoType.Xgd2, IsoType.Xgd1, IsoType.Xsf]

/-- `Iso::read_from_range`: first matching candidate, else the
`InvalidData` error (modelled as `none`). -/
def isoReadFromRange (data : Bytes) : Option IsoType :=
  isoDetectGo data ISO_ALL_SUPPORTED

/-- C6: detection returns the first candidate in the fixed priority order
whose 20 bytes at `root_offset + 0x10000` equal the signature; a candidate
whose range cannot be read is a non-match and probing continues. -/
theorem isoType_detection_first_match :
    (∀ (data : Bytes) (t : IsoType), IsoType.check data t = true
       ↔ (t.rootOffset + 0x10000 + 20 ≤ data.len
          ∧ sliceB data (t.rootOffset + 0x10000) 20 = GDFX_MAGIC))
    ∧ (∀ data : Bytes, IsoType.read data
        = [IsoType.Xsf, IsoType.Xgd2, IsoType.Xgd1, IsoType.Xgd3].find? (IsoType.check data))
    ∧ (∀ data : Bytes, isoReadFromRange data
        = ISO_ALL_SUPPORTED.find? (IsoType.check data)) := by
  have hoff : ∀ t : IsoType, 0x20 * ISO_SECTOR_SIZE + t.rootOffset = t.rootOffset + 0x10000 := by
    intro t
    cases t <;> rfl
  refine ⟨?_, ?_, ?_⟩
  · intro data t
    unfold IsoType.check readExactAt
    rw [hoff]
    by_cases hle : t.rootOffset + 0x10000 + 20 ≤ data.len
    · rw [if_pos hle]
      by_cases heq : sliceB data (t.rootOffset + 0x10000) 20 = GDFX_MAGIC
      · simp [heq, hle]
      · simp [heq, hle]
    · rw [if_neg hle]
      simp [hle]
  · intro data
    unfold IsoType.read
    by_cases h1 : IsoType.check data IsoType.Xsf
    · simp [h1, List.find?]
    · by_cases h2 : IsoType.check data IsoType.Xgd2
      · simp [h1, h2, List.find?]
      · by_cases h3 : IsoType.check data IsoType.Xgd1
        · simp [h1, h2, h3, List.find?]
        · by_cases h4 : IsoType.check data IsoType.Xgd3
          · simp [h1, h2, h3, h4, List.find?]
          · simp [h1, h2, h3, h4, List.find?]
  · intro data
    unfold isoReadFromRange ISO_ALL_SUPPORTED isoDetectGo
    by_cases h1 : IsoType.check data IsoType.Xgd3
    · simp [h1, List.find?]
    · by_cases h2 : IsoType.check data IsoType.Xgd2
      · simp [h1, h2, List.find?, isoDetectGo]
      · by_cases h3 : IsoType.check data IsoType.Xgd1
        · simp [h1, h2, h3, List.find?, isoDetectGo]
        · by_cases h4 : IsoType.check data IsoType.Xsf
          · simp [h1, h2, h3, h4, List.find?, isoDetectGo]
          · simp [h1, h2, h3, h4, List.find?, isoDetectGo]

/-- C5 (amended): when no candidate signature matches, detection fails —
`IsoType::read` returns `None` and `Iso::read_from_range` errors — rather
than falling back to the last candidate. -/
theorem detection_no_match_fails (data : Bytes)
    (h : ∀ t : IsoType, IsoType.check data t = false) :
    IsoType.read data = none ∧ isoReadFromRange data = none := by
  constructor
  · unfold IsoType.read
    simp [h]
  · unfold isoReadFromRange ISO_ALL_SUPPORTED isoDetectGo
    simp [h, isoDetectGo]

/-- C5 counterexample: on a stream with no matching signature (here the
empty stream) the detectors return no candidate at all, not the last
candidate of their priority order. -/
theorem detection_no_fallback_cex :
    IsoType.read bEmpty = none
    ∧ IsoType.read bEmpty ≠ some IsoType.Xgd3
    ∧ isoReadFromRange bEmpty ≠ some IsoType.Xsf := by
  decide

/-- Witness for the amended C5 at the empty stream. -/
theorem detection_no_match_fails_witness :
    (IsoType.check bEmpty IsoType.Xgd3 = false ∧ IsoType.check bEmpty IsoType.Xgd2 = false
      ∧ IsoType.check bEmpty IsoType.Xgd1 = false ∧ IsoType.check bEmpty IsoType.Xsf = false)
    ∧ IsoType.read bEmpty = none ∧ isoReadFromRange bEmpty = none :=
  ⟨by decide, detection_no_match_fails bEmpty (by intro t; cases t <;> decide)⟩

/-!
`src/iso/mod.rs`: path lookup on the in-memory directory tree.
`WindowsPath::from` splits on backslashes dropping empty components;
`DirectoryTable::get_entry` compares entry names with `==`;
`IsoReader::get_entry` folds the components through the tree.
-/

/-- `str::split('\\')` over the characters of a path. -/
def splitBackslashGo : List Char → List Char → List (List Char)
  | [], cur => [cur.reverse]
  | c :: cs, cur =>
    if c = '\\' then cur.reverse :: splitBackslashGo cs []
    else splitBackslashGo cs (c :: cur)

/-- `WindowsPath::from`: split on `\`, dropping the empty components. -/
def windowsPathOf (path : String) : List String :=
  ((splitBackslashGo path.data []).filter (fun l => !l.isEmpty)).map (fun l => String.mk l)

/-- In-memory directory entry as produced by `DirectoryTable::read`: a
name and, for directories, the eagerly parsed child table. -/
inductive DirEntryT where
  | mk (name : String) (subdirectory : Option (List DirEntryT))

def DirEntryT.name : DirEntryT → String
  | .mk n _ => n

def DirEntryT.subdirectory : DirEntryT → Option (List DirEntryT)
  | .mk _ s => s

/-- `DirectoryTable::get_entry`: `entries.iter().find(|e| e.name == name)`
— an exact, case-sensitive comparison. -/
def DirectoryTable.getEntry (entries : List DirEntryT) (name : String) : Option DirEntryT :=
  entries.find? (fun e => e.name == name)

/-- The component loop of `IsoReader::get_entry`. -/
def getEntryGo : Option DirEntryT → Option (List DirEntryT) → List String → Option DirEntryT
  | entry, _, [] => entry
  | _, dir, name :: rest =>
    let entry2 := dir.bind (fun d => DirectoryTable.getEntry d name)
    let dir2 := entry2.bind (fun e => e.subdirectory)
    getEntryGo entry2 dir2 rest

/-- `IsoReader::get_entry` on the root directory table. -/
def IsoReader.getEntry (table : List DirEntryT) (path : String) : Option DirEntryT :=
  getEntryGo none (some table) (windowsPathOf path)

/-- C7: the lookup `IsoReader::get_entry` is case-sensitive, although the
`WindowsPath` doc comment promises case-insensitive matching: looking up
`\DEFAULT.XEX` in a table containing `default.xex` returns nothing, while
the exact-case path finds the entry. -/
theorem getEntry_case_sensitive :
    ((IsoReader.getEntry [DirEntryT.mk "default.xex" none] "\\DEFAULT.XEX").map
      DirEntryT.name) = none
    ∧ ((IsoReader.getEntry [DirEntryT.mk "default.xex" none] "\\default.xex").map
      DirEntryT.name) = some "default.xex"
    ∧ windowsPathOf "\\DEFAULT.XEX" = ["DEFAULT.XEX"] := by
  decide

/-!
`src/god/file_layout.rs`: output path naming policy.
-/

inductive ContentType where
  | GamesOnDemand
  | XboxOriginal
  | InstalledGame
  deriving DecidableEq, Repr

/-- The `u32` discriminant of `ContentType` (`content_type as u32`). -/
def ContentType.code : ContentType → Nat
  | ContentType.GamesOnDemand => 0x7000
  | ContentType.XboxOriginal => 0x5000
  | ContentType.InstalledGame => 0x4000

/-- The identity fields of `TitleExecutionInfo` used by the layout. -/
structure ExeInfo where
  titleId : Nat
  mediaId : Nat
  deriving DecidableEq, Repr

/-- One uppercase hexadecimal digit. -/
def hexDigit (n : Nat) : Char :=
  if n < 10 then Char.ofNat (48 + n) else Char.ofNat (55 + n)

/-- `k` uppercase hexadecimal digits of `n`, most significant first. -/
def hexDigits : Nat → Nat → List Char
  | 0, _ => []
  | k+1, n => hexDigits k (n / 16) ++ [hexDigit (n % 16)]

/-- `format!("{:08X}", n)` for a `u32` value. -/
def toHex8 (n : Nat) : String := String.mk (hexDigits 8 n)

def FileLayout.titleIdString (info : ExeInfo) : String := toHex8 info.titleId

def FileLayout.contentTypeString (ct : ContentType) : String := toHex8 ct.code

/-- `FileLayout::media_id_string`: the media id for GamesOnDemand and
InstalledGame, the title id for XboxOriginal. -/
def FileLayout.mediaIdString (info : ExeInfo) : ContentType → String
  | ContentType.GamesOnDemand => toHex8 info.mediaId
  | ContentType.InstalledGame => toHex8 info.mediaId
  | ContentType.XboxOriginal => toHex8 info.titleId

/-- `FileLayout::data_dir_path`, as the list of path components joined
onto the base path. -/
def FileLayout.dataDirPath (base : List String) (info : ExeInfo) (ct : ContentType) :
    List String :=
  base ++ [FileLayout.titleIdString info, FileLayout.contentTypeString ct,
    FileLayout.mediaIdString info ct ++ ".data"]

/-- `FileLayout::con_header_file_path`. -/
def FileLayout.conHeaderFilePath (base : List String) (info : ExeInfo) (ct : ContentType) :
    List String :=
  base ++ [FileLayout.titleIdString info, FileLayout.contentTypeString ct,
    FileLayout.mediaIdString info ct]

theorem hexDigits_length (k : Nat) : ∀ n, (hexDigits k n).length = k := by
  induction k with
  | zero => intro n; rfl
  | succ k ih => intro n; simp [hexDigits, ih]

/-- C10: for XboxOriginal the `<id>.data` directory segment and the header
file name use the title id, formatted as eight uppercase hex digits; for
GamesOnDemand and InstalledGame they use the media id. -/
theorem fileLayout_media_id_naming (base : List String) (info : ExeInfo)
    (h1 : info.titleId < 4294967296) (h2 : info.mediaId < 4294967296) :
    FileLayout.mediaIdString info ContentType.XboxOriginal = toHex8 info.titleId
    ∧ FileLayout.mediaIdString info ContentType.GamesOnDemand = toHex8 info.mediaId
    ∧ FileLayout.mediaIdString info ContentType.InstalledGame = toHex8 info.mediaId
    ∧ (∀ n : Nat, (toHex8 n).length = 8)
    ∧ (∀ ct : ContentType, FileLayout.dataDirPath base info ct
        = base ++ [toHex8 info.titleId, FileLayout.contentTypeString ct,
            FileLayout.mediaIdString info ct ++ ".data"])
    ∧ (∀ ct : ContentType, FileLayout.conHeaderFilePath base info ct
        = base ++ [toHex8 info.titleId, FileLayout.contentTypeString ct,
            FileLayout.mediaIdString info ct]) := by
  refine ⟨rfl, rfl, rfl, ?_, fun ct => rfl, fun ct => rfl⟩
  intro n
  show (String.mk (hexDigits 8 n)).length = 8
  simp [String.length, hexDigits_length]

/-- Witness for C10 at concrete u32 identity values. -/
theorem fileLayout_media_id_naming_witness :
    (0x12345678 : Nat) < 4294967296 ∧ (0xABCDEF01 : Nat) < 4294967296
    ∧ FileLayout.mediaIdString ⟨0x12345678, 0xABCDEF01⟩ ContentType.XboxOriginal
        = toHex8 0x12345678
    ∧ toHex8 0x12345678 = "12345678" ∧ toHex8 0x5000 = "00005000" :=
  ⟨by norm_num, by norm_num,
    (fileLayout_media_id_naming [] ⟨0x12345678, 0xABCDEF01⟩ (by norm_num) (by norm_num)).1,
    by decide, by decide⟩

theorem sliceB_sliceB {b : Bytes} {s L j k : Nat} (h1 : s + L ≤ b.len) (h2 : j + k ≤ L) :
    sliceB (sliceB b s L) j k = sliceB b (s + j) k := by
  unfold sliceB
  simp only [Bytes.mk.injEq, true_and]
  have hC : L - j - k + k ≤ L := by omega
  have e1 : (256 : Nat) ^ L = 256 ^ (L - j - k) * 256 ^ (j + k) := by
    rw [← pow_add]
    congr 1
    omega
  rw [e1, Nat.mod_mul_right_div_self, Nat.div_div_eq_div_mul, ← pow_add]
  rw [Nat.mod_mod_of_dvd _ (pow_dvd_pow 256 (by omega))]
  congr 3
  omega

/-- Rust `BE::write_u32` output: 4 big-endian bytes of a `u32` value. -/
def u32BE (v : Nat) : Bytes := ⟨4, v % 4294967296⟩

theorem u32BE_wf (v : Nat) : (u32BE v).wf :=
  Nat.mod_lt _ (by norm_num)

/-- Overwrite `p.len` bytes of `b` at offset `off`
(the `self.buffer[offset..offset + buf.len()].copy_from_slice(buf)` of
the builder's write helpers). -/
def writeBytesAt (b : Bytes) (off : Nat) (p : Bytes) : Bytes :=
  appB (sliceB b 0 off) (appB p (sliceB b (off + p.len) (b.len - off - p.len)))

def writeU32BE (b : Bytes) (off v : Nat) : Bytes := writeBytesAt b off (u32BE v)

theorem writeBytesAt_len {b p : Bytes} {off : Nat} (h : off + p.len ≤ b.len) :
    (writeBytesAt b off p).len = b.len := by
  simp only [writeBytesAt, appB_len, sliceB_len]
  omega

theorem writeBytesAt_wf {b p : Bytes} (off : Nat) (hp : p.wf) :
    (writeBytesAt b off p).wf :=
  appB_wf (sliceB_wf _ _ _) (appB_wf hp (sliceB_wf _ _ _))

theorem sliceB_writeBytesAt_target {b p : Bytes} {off : Nat} (hp : p.wf)
    (h : off + p.len ≤ b.len) :
    sliceB (writeBytesAt b off p) off p.len = p := by
  unfold writeBytesAt
  rw [sliceB_appB_right (sliceB b 0 off) (by rw [sliceB_len])
    (by simp only [sliceB_len, appB_len]; omega)]
  rw [show off - (sliceB b 0 off).len = 0 from by rw [sliceB_len]; omega]
  rw [sliceB_appB_left _ (sliceB_wf _ _ _) (by omega : 0 + p.len ≤ p.len)]
  exact sliceB_full hp

theorem sliceB_writeBytesAt_before {b p : Bytes} {off i k : Nat} (hp : p.wf)
    (h : i + k ≤ off) (hoff : off + p.len ≤ b.len) :
    sliceB (writeBytesAt b off p) i k = sliceB b i k := by
  unfold writeBytesAt
  rw [sliceB_appB_left _ (appB_wf hp (sliceB_wf _ _ _)) (by rw [sliceB_len]; omega)]
  rw [sliceB_sliceB (by omega : 0 + off ≤ b.len) (by omega : i + k ≤ off)]
  rw [Nat.zero_add]

theorem sliceB_writeBytesAt_after {b p : Bytes} {off i k : Nat} (h : off + p.len ≤ i)
    (hik : i + k ≤ b.len) :
    sliceB (writeBytesAt b off p) i k = sliceB b i k := by
  unfold writeBytesAt
  rw [sliceB_appB_right (sliceB b 0 off) (by rw [sliceB_len]; omega)
    (by simp only [sliceB_len, appB_len]; omega)]
  rw [sliceB_len]
  rw [sliceB_appB_right p (by omega) (by simp only [sliceB_len]; omega)]
  rw [sliceB_sliceB (by omega : off + p.len + (b.len - off - p.len) ≤ b.len)
    (by omega : i - off - p.len + k ≤ b.len - off - p.len)]
  congr 1
  omega

/-!
`src/god/con_header.rs`: the header builder over the constant template.
-/

/-- Modelled from the spec: the constant template `EMPTY_LIVE`
(`include_bytes!("empty_live.bin")` — the binary file is not part of the
source tree).  Per §6 of the spec the blob is a fixed-size template whose
final digest covers bytes `0x0344 .. 0x0344 + 0xACBC`, so its size is
0xB000 bytes; its content is irrelevant to the icon setter and is
modelled as zeros. -/
def EMPTY_LIVE : Bytes := zerosB 0xB000

structure ConHeaderBuilder where
  buffer : Bytes

/-- `ConHeaderBuilder::new`. -/
def ConHeaderBuilder.new : ConHeaderBuilder := ⟨EMPTY_LIVE⟩

/-- `ConHeaderBuilder::with_game_icon`: requires the payload to be at most
0x400 bytes (Rust `assert!`, modelled as `none` — it fails before any byte
is written), then writes the length at 0x1712 and 0x1716 and the payload
at 0x171A, mirrored at 0x571A. -/
def ConHeaderBuilder.withGameIcon (b : ConHeaderBuilder) (png : Option Bytes) :
    Option ConHeaderBuilder :=
  let pngBytes := png.getD bEmpty
  if pngBytes.len ≤ 0x400 then
    some ⟨writeBytesAt
      (writeBytesAt
        (writeU32BE (writeU32BE b.buffer 0x1712 pngBytes.len) 0x1716 pngBytes.len)
        0x171a pngBytes)
      0x571a pngBytes⟩
  else none

/-- C9: `with_game_icon` rejects a payload over 0x400 bytes before writing
anything; within the bound it writes the icon length at 0x1712 and 0x1716,
the icon bytes at 0x171A and their mirror at 0x571A, leaving the buffer
size unchanged. -/
theorem withGameIcon_spec (b : ConHeaderBuilder) (icon : Bytes)
    (hlen : b.buffer.len = 0xB000) (hiwf : icon.wf) :
    (0x400 < icon.len → b.withGameIcon (some icon) = none)
    ∧ (icon.len ≤ 0x400 → ∃ b2 : ConHeaderBuilder,
        b.withGameIcon (some icon) = some b2
        ∧ b2.buffer.len = 0xB000
        ∧ sliceB b2.buffer 0x1712 4 = u32BE icon.len
        ∧ sliceB b2.buffer 0x1716 4 = u32BE icon.len
        ∧ sliceB b2.buffer 0x171a icon.len = icon
        ∧ sliceB b2.buffer 0x571a icon.len = icon) := by
  constructor
  · intro hgt
    unfold ConHeaderBuilder.withGameIcon
    simp only [Option.getD]
    rw [if_neg (by omega)]
  · intro hle
    unfold ConHeaderBuilder.withGameIcon
    simp only [Option.getD]
    rw [if_pos (by omega)]
    set w1 := writeU32BE b.buffer 0x1712 icon.len with hw1
    set w2 := writeU32BE w1 0x1716 icon.len with hw2
    set w3 := writeBytesAt w2 0x171a icon with hw3
    set w4 := writeBytesAt w3 0x571a icon with hw4
    have hl1 : w1.len = 0xB000 := by
      rw [hw1]
      unfold writeU32BE
      rw [writeBytesAt_len (by rw [hlen]; norm_num [u32BE])]
      exact hlen
    have hl2 : w2.len = 0xB000 := by
      rw [hw2]
      unfold writeU32BE
      rw [writeBytesAt_len (by rw [hl1]; norm_num [u32BE])]
      exact hl1
    have hl3 : w3.len = 0xB000 := by
      rw [hw3, writeBytesAt_len (by rw [hl2]; omega)]
      exact hl2
    have hl4 : w4.len = 0xB000 := by
      rw [hw4, writeBytesAt_len (by rw [hl3]; omega)]
      exact hl3
    refine ⟨⟨w4⟩, rfl, hl4, ?_, ?_, ?_, ?_⟩
    · rw [hw4, sliceB_writeBytesAt_before hiwf (by omega) (by rw [hl3]; omega)]
      rw [hw3, sliceB_writeBytesAt_before hiwf (by omega) (by rw [hl2]; omega)]
      rw [hw2]
      unfold writeU32BE
      rw [sliceB_writeBytesAt_before (u32BE_wf _) (by norm_num [u32BE]) (by rw [hl1]; norm_num [u32BE])]
      rw [hw1]
      unfold writeU32BE
      exact sliceB_writeBytesAt_target (u32BE_wf _) (by rw [hlen]; norm_num [u32BE])
    · rw [hw4, sliceB_writeBytesAt_before hiwf (by omega) (by rw [hl3]; omega)]
      rw [hw3, sliceB_writeBytesAt_before hiwf (by omega) (by rw [hl2]; omega)]
      rw [hw2]
      unfold writeU32BE
      exact sliceB_writeBytesAt_target (u32BE_wf _) (by rw [hl1]; norm_num [u32BE])
    · rw [hw4, sliceB_writeBytesAt_before hiwf (by omega) (by rw [hl3]; omega)]
      rw [hw3]
      exact sliceB_writeBytesAt_target hiwf (by rw [hl2]; omega)
    · rw [hw4]
      exact sliceB_writeBytesAt_target hiwf (by rw [hl3]; omega)

/-- Witness for C9: a 3-byte icon written into the template builder. -/
theorem withGameIcon_spec_witness :
    ConHeaderBuilder.new.buffer.len = 0xB000
    ∧ (ofList [1, 2, 3]).wf
    ∧ ((3 : Nat) ≤ 0x400 → ∃ b2 : ConHeaderBuilder,
        ConHeaderBuilder.new.withGameIcon (some (ofList [1, 2, 3])) = some b2
        ∧ b2.buffer.len = 0xB000
        ∧ sliceB b2.buffer 0x1712 4 = u32BE (ofList [1, 2, 3]).len
        ∧ sliceB b2.buffer 0x1716 4 = u32BE (ofList [1, 2, 3]).len
        ∧ sliceB b2.buffer 0x171a (ofList [1, 2, 3]).len = ofList [1, 2, 3]
        ∧ sliceB b2.buffer 0x571a (ofList [1, 2, 3]).len = ofList [1, 2, 3]) := by
  refine ⟨rfl, by decide, ?_⟩
  intro h3
  exact ((withGameIcon_spec ConHeaderBuilder.new (ofList [1, 2, 3]) rfl (by decide)).2
    (by decide))

/-!
`src/new/gdfx.rs` (`Dir::read_from_range`) and
`src/iso/directory_table.rs` (`DirectoryTable::read`): directory parsing.
Streams are byte strings; positioned reads that run past the end are
`UnexpectedEof` errors (`none`).
-/

/-- Little-endian u16 decoding of a 2-byte string. -/
def decU16LE (b : Bytes) : Nat := b.val / 256 + b.val % 256 * 256

/-- Little-endian u32 decoding of a 4-byte string. -/
def decU32LE (b : Bytes) : Nat :=
  b.val / 16777216 % 256 + b.val / 65536 % 256 * 256
    + b.val / 256 % 256 * 65536 + b.val % 256 * 16777216

def readU16LEAt (data : Bytes) (pos : Nat) : Option Nat :=
  match readExactAt data pos 2 with
  | some b => some (decU16LE b)
  | none => none

def readU32LEAt (data : Bytes) (pos : Nat) : Option Nat :=
  match readExactAt data pos 4 with
  | some b => some (decU32LE b)
  | none => none

def readU8At (data : Bytes) (pos : Nat) : Option Nat :=
  match readExactAt data pos 1 with
  | some b => some b.val
  | none => none

/-- A parsed GDFX directory entry (`DirEntry` of `src/new/gdfx.rs`; the
name is the `name_len`-byte prefix of `name_buf`). -/
structure GdfxDirEntry where
  attrs : Nat
  nameLen : Nat
  name : Bytes
  sector : Nat
  size : Nat
  subtreeLeft : Nat
  subtreeRight : Nat
  deriving DecidableEq, Repr

/-- One iteration of the entry loop in `Dir::read_from_range`: reads the
two subtree fields, stops at a `0xFFFF` sentinel (`some none`), otherwise
decodes the record, reads the name, and realigns the absolute position to
the next 4-byte boundary. `none` is an I/O error. -/
def gdfxReadEntry (data : Bytes) (pos : Nat) : Option (Option (GdfxDirEntry × Nat)) :=
  match readU16LEAt data pos, readU16LEAt data (pos + 2) with
  | some l, some r =>
    if l = 0xFFFF ∨ r = 0xFFFF then some none
    else
      match readU32LEAt data (pos + 4), readU32LEAt data (pos + 8),
          readU8At data (pos + 12), readU8At data (pos + 13) with
      | some sec, some sz, some at2, some nl =>
        match readExactAt data (pos + 14) nl with
        | some nm =>
          some (some (⟨at2, nl, nm, sec, sz, l, r⟩,
            pos + 14 + nl + (4 - (pos + 14 + nl) % 4) % 4))
        | none => none
      | _, _, _, _ => none
  | _, _ => none

/-- The per-sector entry loop of `Dir::read_from_range`: read entries
until the sentinel.  The fuel only bounds the recursion (each entry
consumes at least 14 bytes, so `data.len + 1` always suffices). -/
def gdfxReadSector (data : Bytes) : Nat → Nat → Option (List GdfxDirEntry)
  | 0, _ => none
  | fuel+1, pos =>
    match gdfxReadEntry data pos with
    | none => none
    | some none => some []
    | some (some (e, pos2)) =>
      match gdfxReadSector data fuel pos2 with
      | none => none
      | some es => some (e :: es)

/-- The sector loop of `Dir::read_from_range`: seek to each sector start
`off, off + 2048, ...` within the extent and collect that sector's
entries. -/
def gdfxReadSectors (data : Bytes) : Nat → Nat → Nat → Option (List GdfxDirEntry)
  | 0, _, _ => none
  | fuel+1, off, len =>
    if len = 0 then some []
    else
      match gdfxReadSector data (data.len + 1) off with
      | none => none
      | some es =>
        match gdfxReadSectors data fuel (off + 2048) (len - 2048) with
        | none => none
        | some rest => some (es ++ rest)

/-- `Dir::read_from_range` over the byte range `[off, off + len)`. -/
def gdfxDirReadFromRange (data : Bytes) (off len : Nat) : Option (List GdfxDirEntry) :=
  gdfxReadSectors data (len + 1) off len

/-- An in-memory entry of the legacy `DirectoryTable` (name decoded from
however many bytes the single `read` call returned, zero-filled to
`name_length` as in the Rust `vec![0; len]`). -/
inductive LegacyEntry where
  | mk (subtreeLeft subtreeRight sector size attrs nameLen : Nat) (name : Bytes)
      (subdirectory : Option (List LegacyEntry))

/-- The entry loop of the legacy `DirectoryTable::read` together with
`DirectoryEntry::read`: it stops at the FIRST sentinel record (returning
the entries so far) and never advances to the next sector; after each
entry it also stops when the position reached the extent's end.  For a
DIRECTORY-attributed entry the subdirectory table is parsed recursively
(the reader position is restored afterwards).  The fuel only bounds the
recursion. -/
def legacyReadGo (data : Bytes) (rootOff : Nat) : Nat → Nat → Nat → Option (List LegacyEntry)
  | 0, _, _ => none
  | fuel+1, pos, finalPos =>
    match readU16LEAt data pos, readU16LEAt data (pos + 2) with
    | some l, some r =>
      if l = 0xFFFF ∨ r = 0xFFFF then some []
      else
        match readU32LEAt data (pos + 4), readU32LEAt data (pos + 8),
            readU8At data (pos + 12), readU8At data (pos + 13) with
        | some sec, some sz, some at2, some nl =>
          natCase (min nl (data.len - (pos + 14))) fun m =>
          natCase (pos + 14 + m + (4 - (pos + 14 + m) % 4) % 4) fun pos2 =>
          let nm := appB (sliceB data (pos + 14) m) (zerosB (nl - m))
          let sub : Option (Option (List LegacyEntry)) :=
            if at2 &&& 16 ≠ 0 then
              match legacyReadGo data rootOff fuel (sec * 2048 + rootOff)
                  (sec * 2048 + rootOff + sz) with
              | none => none
              | some t => some (some t)
            else some none
          match sub with
          | none => none
          | some sd =>
            let e := LegacyEntry.mk l r sec sz (at2 &&& 0xB7) nl nm sd
            if finalPos ≤ pos2 then some [e]
            else
              match legacyReadGo data rootOff fuel pos2 finalPos with
              | none => none
              | some rest => some (e :: rest)
        | _, _, _, _ => none
    | _, _ => none

/-- The legacy `DirectoryTable::read` over the extent
`(sector, size)` of a volume whose filesystem starts at `rootOff`. -/
def legacyDirectoryTableRead (data : Bytes) (rootOff sector size fuel : Nat) :
    Option (List LegacyEntry) :=
  legacyReadGo data rootOff fuel (sector * 2048 + rootOff) (sector * 2048 + rootOff + size)

/-- Specification-side description of one stored directory entry. -/
structure GdfxEntrySpec where
  left : Nat
  right : Nat
  sector : Nat
  size : Nat
  attrs : Nat
  name : Bytes
  deriving DecidableEq, Repr

/-- Zero bytes after the name up to the next 4-byte boundary (entries
start 4-byte aligned and the 14 fixed bytes put the name at `pos + 14`). -/
def entryPad (e : GdfxEntrySpec) : Nat := (4 - (14 + e.name.len) % 4) % 4

def entrySize (e : GdfxEntrySpec) : Nat := 14 + e.name.len + entryPad e

/-- Little-endian 2-byte encoding. -/
def u16LEb (v : Nat) : Bytes := appB ⟨1, v % 256⟩ ⟨1, v / 256 % 256⟩

/-- Little-endian 4-byte encoding. -/
def u32LEb (v : Nat) : Bytes :=
  appB ⟨1, v % 256⟩ (appB ⟨1, v / 256 % 256⟩ (appB ⟨1, v / 65536 % 256⟩ ⟨1, v / 16777216 % 256⟩))

/-- The binary encoding of one directory entry record. -/
def encodeEntry (e : GdfxEntrySpec) : Bytes :=
  appB (u16LEb e.left) (appB (u16LEb e.right) (appB (u32LEb e.sector) (appB (u32LEb e.size)
    (appB ⟨1, e.attrs⟩ (appB ⟨1, e.name.len⟩ (appB e.name (zerosB (entryPad e))))))))

/-- A storable entry: in-range fields (sentinel values excluded for the
subtree words), a u8-sized name, well-formed name bytes. -/
def wfEntry (e : GdfxEntrySpec) : Prop :=
  e.left < 65535 ∧ e.right < 65535 ∧ e.sector < 4294967296 ∧ e.size < 4294967296
    ∧ e.attrs < 256 ∧ e.name.len ≤ 255 ∧ e.name.wf

instance (e : GdfxEntrySpec) : Decidable (wfEntry e) := by
  unfold wfEntry; infer_instance

def sectorUsed (es : List GdfxEntrySpec) : Nat := (es.map entrySize).sum

/-- The 4-byte `0xFFFF, 0xFFFF` sentinel record. -/
def SENTINEL4 : Bytes := ⟨4, 0xFFFFFFFF⟩

/-- The binary encoding of one directory sector: the entry records
back-to-back, a sentinel, and zero padding to the 2048-byte sector end. -/
def encodeSector (es : List GdfxEntrySpec) : Bytes :=
  appB (concatB (es.map encodeEntry)) (appB SENTINEL4 (zerosB (2048 - sectorUsed es - 4)))

/-- A storable sector: storable entries that leave room for the sentinel. -/
def wfSector (es : List GdfxEntrySpec) : Prop :=
  (∀ e ∈ es, wfEntry e) ∧ sectorUsed es + 4 ≤ 2048

instance (es : List GdfxEntrySpec) : Decidable (wfSector es) := by
  unfold wfSector; infer_instance

/-- The binary encoding of a directory extent: its sectors back-to-back,
each independently sentinel-terminated and padded. -/
def encodeDir (sectors : List (List GdfxEntrySpec)) : Bytes :=
  concatB (sectors.map encodeSector)

def wfDir (sectors : List (List GdfxEntrySpec)) : Prop :=
  ∀ es ∈ sectors, wfSector es

instance (sectors : List (List GdfxEntrySpec)) : Decidable (wfDir sectors) := by
  unfold wfDir; infer_instance

/-- The entry the reader is expected to produce for a stored entry. -/
def specToEntry (e : GdfxEntrySpec) : GdfxDirEntry :=
  ⟨e.attrs, e.name.len, e.name, e.sector, e.size, e.left, e.right⟩

/-- `data` holds the byte string `r` starting at offset `pos`. -/
def startsWithAt (data : Bytes) (pos : Nat) (r : Bytes) : Prop :=
  pos + r.len ≤ data.len ∧ sliceB data pos r.len = r

instance (data : Bytes) (pos : Nat) (r : Bytes) : Decidable (startsWithAt data pos r) := by
  unfold startsWithAt; infer_instance

theorem u16LEb_wf (v : Nat) : (u16LEb v).wf :=
  appB_wf (Nat.mod_lt _ (by norm_num)) (Nat.mod_lt _ (by norm_num))

theorem u32LEb_wf (v : Nat) : (u32LEb v).wf :=
  appB_wf (Nat.mod_lt _ (by norm_num)) (appB_wf (Nat.mod_lt _ (by norm_num))
    (appB_wf (Nat.mod_lt _ (by norm_num)) (Nat.mod_lt _ (by norm_num))))

theorem u16LEb_len (v : Nat) : (u16LEb v).len = 2 := rfl

theorem u32LEb_len (v : Nat) : (u32LEb v).len = 4 := rfl

theorem two_byte_div {x y : Nat} (hy : y < 256) : (x * 256 + y) / 256 = x := by
  rw [Nat.add_comm, Nat.add_mul_div_right _ _ (by norm_num : (0:Nat) < 256)]
  rw [Nat.div_eq_of_lt hy, Nat.zero_add]

theorem two_byte_mod {x y : Nat} (hy : y < 256) : (x * 256 + y) % 256 = y := by
  rw [Nat.add_comm, Nat.add_mul_mod_self_right, Nat.mod_eq_of_lt hy]

theorem decU16LE_u16LEb {v : Nat} (hv : v < 65536) : decU16LE (u16LEb v) = v := by
  unfold decU16LE u16LEb appB
  simp only [pow_one]
  rw [two_byte_div (Nat.mod_lt _ (by norm_num)), two_byte_mod (Nat.mod_lt _ (by norm_num))]
  omega

theorem decU32LE_u32LEb {v : Nat} (hv : v < 4294967296) : decU32LE (u32LEb v) = v := by
  have h0 : v % 256 < 256 := Nat.mod_lt _ (by norm_num)
  have h1 : v / 256 % 256 < 256 := Nat.mod_lt _ (by norm_num)
  have h2 : v / 65536 % 256 < 256 := Nat.mod_lt _ (by norm_num)
  have h3 : v / 16777216 % 256 < 256 := Nat.mod_lt _ (by norm_num)
  have hval : (u32LEb v).val
      = v % 256 * 16777216 + (v / 256 % 256 * 65536 + (v / 65536 % 256 * 256
          + v / 16777216 % 256)) := by
    unfold u32LEb appB
    norm_num
  have hb3 : (u32LEb v).val % 256 = v / 16777216 % 256 := by
    rw [hval, show v % 256 * 16777216 + (v / 256 % 256 * 65536 + (v / 65536 % 256 * 256
        + v / 16777216 % 256))
      = (v % 256 * 65536 + v / 256 % 256 * 256 + v / 65536 % 256) * 256
          + v / 16777216 % 256 from by ring]
    exact two_byte_mod h3
  have hb2 : (u32LEb v).val / 256 % 256 = v / 65536 % 256 := by
    rw [hval, show v % 256 * 16777216 + (v / 256 % 256 * 65536 + (v / 65536 % 256 * 256
        + v / 16777216 % 256))
      = (v % 256 * 65536 + v / 256 % 256 * 256 + v / 65536 % 256) * 256
          + v / 16777216 % 256 from by ring]
    rw [two_byte_div h3]
    rw [show v % 256 * 65536 + v / 256 % 256 * 256 + v / 65536 % 256
      = (v % 256 * 256 + v / 256 % 256) * 256 + v / 65536 % 256 from by ring]
    exact two_byte_mod h2
  have hb1 : (u32LEb v).val / 65536 % 256 = v / 256 % 256 := by
    rw [hval, show v % 256 * 16777216 + (v / 256 % 256 * 65536 + (v / 65536 % 256 * 256
        + v / 16777216 % 256))
      = (v / 65536 % 256 * 256 + v / 16777216 % 256)
          + (v % 256 * 256 + v / 256 % 256) * 65536 from by ring]
    have hlt : v / 65536 % 256 * 256 + v / 16777216 % 256 < 65536 := by omega
    rw [Nat.add_mul_div_right _ _ (by norm_num : (0:Nat) < 65536)]
    rw [Nat.div_eq_of_lt hlt, Nat.zero_add]
    exact two_byte_mod h1
  have hb0 : (u32LEb v).val / 16777216 % 256 = v % 256 := by
    rw [hval, Nat.add_comm]
    have hlt : v / 256 % 256 * 65536 + (v / 65536 % 256 * 256 + v / 16777216 % 256)
        < 16777216 := by omega
    rw [Nat.add_mul_div_right _ _ (by norm_num : (0:Nat) < 16777216)]
    rw [Nat.div_eq_of_lt hlt, Nat.zero_add]
    exact Nat.mod_eq_of_lt h0
  unfold decU32LE
  rw [hb0, hb1, hb2, hb3]
  clear hval hb0 hb1 hb2 hb3 h0 h1 h2 h3
  omega

theorem encodeEntry_len (e : GdfxEntrySpec) : (encodeEntry e).len = entrySize e := by
  simp only [encodeEntry, appB_len, u16LEb_len, u32LEb_len, zerosB, entrySize]
  omega

theorem encodeEntry_wf {e : GdfxEntrySpec} (he : wfEntry e) : (encodeEntry e).wf := by
  obtain ⟨_, _, _, _, h5, h6, h7⟩ := he
  exact appB_wf (u16LEb_wf _) (appB_wf (u16LEb_wf _) (appB_wf (u32LEb_wf _)
    (appB_wf (u32LEb_wf _) (appB_wf (by simpa [Bytes.wf] using h5)
      (appB_wf (by simp [Bytes.wf]; omega) (appB_wf h7 (zerosB_wf _)))))))

theorem sentinel_wf : SENTINEL4.wf := by
  unfold Bytes.wf SENTINEL4
  norm_num

theorem encodeSector_wf {es : List GdfxEntrySpec} (h : wfSector es) :
    (encodeSector es).wf :=
  appB_wf (concatB_wf (by
    intro b hb
    rcases List.mem_map.mp hb with ⟨e, he, rfl⟩
    exact encodeEntry_wf (h.1 e he)))
    (appB_wf sentinel_wf (zerosB_wf _))

theorem encodeSector_len {es : List GdfxEntrySpec} (h : wfSector es) :
    (encodeSector es).len = 2048 := by
  have hc : (concatB (es.map encodeEntry)).len = sectorUsed es := by
    rw [concatB_len]
    unfold sectorUsed
    congr 1
    rw [List.map_map]
    apply List.map_congr_left
    intro e _
    exact encodeEntry_len e
  simp only [encodeSector, appB_len, hc, zerosB]
  have := h.2
  unfold SENTINEL4
  simp only
  omega

theorem encodeDir_wf {sectors : List (List GdfxEntrySpec)} (h : wfDir sectors) :
    (encodeDir sectors).wf :=
  concatB_wf (by
    intro b hb
    rcases List.mem_map.mp hb with ⟨es, hes, rfl⟩
    exact encodeSector_wf (h es hes))

theorem encodeDir_len (sectors : List (List GdfxEntrySpec)) :
    wfDir sectors → (encodeDir sectors).len = 2048 * sectors.length := by
  induction sectors with
  | nil => intro _; rfl
  | cons es rest ih =>
    intro h
    show (appB (encodeSector es) (encodeDir rest)).len = _
    rw [appB_len, encodeSector_len (h es (List.mem_cons_self _ _)),
      ih (fun x hx => h x (List.mem_cons_of_mem _ hx))]
    simp [List.length_cons]
    ring

theorem sliceB_appB_drop (a : Bytes) {b : Bytes} {j k : Nat} (h : j + k ≤ b.len) :
    sliceB (appB a b) (a.len + j) k = sliceB b j k := by
  rw [sliceB_appB_right a (Nat.le_add_right _ _) (by omega)]
  congr 1
  omega

theorem readExactAt_of_startsWith {data r : Bytes} {pos j k : Nat}
    (h : startsWithAt data pos r) (hjk : j + k ≤ r.len) :
    readExactAt data (pos + j) k = some (sliceB r j k) := by
  obtain ⟨h1, h2⟩ := h
  unfold readExactAt
  rw [if_pos (by omega)]
  congr 1
  have hs := sliceB_sliceB (b := data) (s := pos) (L := r.len) h1 hjk
  rw [h2] at hs
  exact hs.symm

theorem startsWithAt_appB {data a b : Bytes} {pos : Nat} (ha : a.wf) (hb : b.wf)
    (h : startsWithAt data pos (appB a b)) :
    startsWithAt data pos a ∧ startsWithAt data (pos + a.len) b := by
  obtain ⟨h1, h2⟩ := h
  rw [appB_len] at h1
  refine ⟨⟨by omega, ?_⟩, ⟨by omega, ?_⟩⟩
  · have hs := sliceB_sliceB (b := data) (s := pos) (L := (appB a b).len)
      (j := 0) (k := a.len) (by rw [appB_len]; omega) (by rw [appB_len]; omega)
    rw [h2, sliceB_appB_left _ hb (by omega), sliceB_full ha] at hs
    exact hs.symm
  · have hs := sliceB_sliceB (b := data) (s := pos) (L := (appB a b).len)
      (j := a.len) (k := b.len) (by rw [appB_len]; omega) (by rw [appB_len])
    rw [h2, sliceB_appB_right a (le_refl _) (le_refl _), Nat.sub_self, sliceB_full hb] at hs
    exact hs.symm

theorem encE_w6 {e : GdfxEntrySpec} (he : wfEntry e) :
    (appB e.name (zerosB (entryPad e))).wf :=
  appB_wf he.2.2.2.2.2.2 (zerosB_wf _)

theorem encE_w5 {e : GdfxEntrySpec} (he : wfEntry e) :
    (appB ⟨1, e.name.len⟩ (appB e.name (zerosB (entryPad e)))).wf :=
  appB_wf (by
    have h6 := he.2.2.2.2.2.1
    unfold Bytes.wf
    simp only [pow_one]
    omega) (encE_w6 he)

theorem encE_w4 {e : GdfxEntrySpec} (he : wfEntry e) :
    (appB ⟨1, e.attrs⟩ (appB ⟨1, e.name.len⟩ (appB e.name (zerosB (entryPad e))))).wf :=
  appB_wf (by
    have h5 := he.2.2.2.2.1
    unfold Bytes.wf
    simp only [pow_one]
    omega) (encE_w5 he)

theorem encE_w3 {e : GdfxEntrySpec} (he : wfEntry e) :
    (appB (u32LEb e.size) (appB ⟨1, e.attrs⟩ (appB ⟨1, e.name.len⟩
      (appB e.name (zerosB (entryPad e)))))).wf :=
  appB_wf (u32LEb_wf _) (encE_w4 he)

theorem encE_w2 {e : GdfxEntrySpec} (he : wfEntry e) :
    (appB (u32LEb e.sector) (appB (u32LEb e.size) (appB ⟨1, e.attrs⟩ (appB ⟨1, e.name.len⟩
      (appB e.name (zerosB (entryPad e))))))).wf :=
  appB_wf (u32LEb_wf _) (encE_w3 he)

theorem encE_w1 {e : GdfxEntrySpec} (he : wfEntry e) :
    (appB (u16LEb e.right) (appB (u32LEb e.sector) (appB (u32LEb e.size) (appB ⟨1, e.attrs⟩
      (appB ⟨1, e.name.len⟩ (appB e.name (zerosB (entryPad e)))))))).wf :=
  appB_wf (u16LEb_wf _) (encE_w2 he)

theorem encE_left {e : GdfxEntrySpec} (he : wfEntry e) :
    sliceB (encodeEntry e) 0 2 = u16LEb e.left := by
  unfold encodeEntry
  rw [sliceB_appB_left _ (encE_w1 he) (by rw [u16LEb_len] : 0 + 2 ≤ (u16LEb e.left).len)]
  exact sliceB_full (u16LEb_wf _)

theorem sliceB_appB_drop2 {a b : Bytes} {p j k : Nat} (hp : p = a.len + j)
    (h : j + k ≤ b.len) : sliceB (appB a b) p k = sliceB b j k := by
  subst hp
  exact sliceB_appB_drop a h

theorem encE_right {e : GdfxEntrySpec} (he : wfEntry e) :
    sliceB (encodeEntry e) 2 2 = u16LEb e.right := by
  unfold encodeEntry
  rw [sliceB_appB_drop2 (show (2 : Nat) = (u16LEb e.left).len + 0 from rfl)
    (by simp only [appB_len, u16LEb_len, u32LEb_len, zerosB]; omega)]
  rw [sliceB_appB_left _ (encE_w2 he) (by rw [u16LEb_len] : 0 + 2 ≤ (u16LEb e.right).len)]
  exact sliceB_full (u16LEb_wf _)

theorem encE_sector {e : GdfxEntrySpec} (he : wfEntry e) :
    sliceB (encodeEntry e) 4 4 = u32LEb e.sector := by
  unfold encodeEntry
  rw [sliceB_appB_drop2 (show (4 : Nat) = (u16LEb e.left).len + 2 from rfl)
    (by simp only [appB_len, u16LEb_len, u32LEb_len, zerosB]; omega)]
  rw [sliceB_appB_drop2 (show (2 : Nat) = (u16LEb e.right).len + 0 from rfl)
    (by simp only [appB_len, u16LEb_len, u32LEb_len, zerosB]; omega)]
  rw [sliceB_appB_left _ (encE_w3 he) (by rw [u32LEb_len] : 0 + 4 ≤ (u32LEb e.sector).len)]
  exact sliceB_full (u32LEb_wf _)

theorem encE_size {e : GdfxEntrySpec} (he : wfEntry e) :
    sliceB (encodeEntry e) 8 4 = u32LEb e.size := by
  unfold encodeEntry
  rw [sliceB_appB_drop2 (show (8 : Nat) = (u16LEb e.left).len + 6 from rfl)
    (by simp only [appB_len, u16LEb_len, u32LEb_len, zerosB]; omega)]
  rw [sliceB_appB_drop2 (show (6 : Nat) = (u16LEb e.right).len + 4 from rfl)
    (by simp only [appB_len, u16LEb_len, u32LEb_len, zerosB]; omega)]
  rw [sliceB_appB_drop2 (show (4 : Nat) = (u32LEb e.sector).len + 0 from rfl)
    (by simp only [appB_len, u16LEb_len, u32LEb_len, zerosB]; omega)]
  rw [sliceB_appB_left _ (encE_w4 he) (by rw [u32LEb_len] : 0 + 4 ≤ (u32LEb e.size).len)]
  exact sliceB_full (u32LEb_wf _)

theorem encE_attrs {e : GdfxEntrySpec} (he : wfEntry e) :
    sliceB (encodeEntry e) 12 1 = ⟨1, e.attrs⟩ := by
  unfold encodeEntry
  rw [sliceB_appB_drop2 (show (12 : Nat) = (u16LEb e.left).len + 10 from rfl)
    (by simp only [appB_len, u16LEb_len, u32LEb_len, zerosB]; omega)]
  rw [sliceB_appB_drop2 (show (10 : Nat) = (u16LEb e.right).len + 8 from rfl)
    (by simp only [appB_len, u16LEb_len, u32LEb_len, zerosB]; omega)]
  rw [sliceB_appB_drop2 (show (8 : Nat) = (u32LEb e.sector).len + 4 from rfl)
    (by simp only [appB_len, u16LEb_len, u32LEb_len, zerosB]; omega)]
  rw [sliceB_appB_drop2 (show (4 : Nat) = (u32LEb e.size).len + 0 from rfl)
    (by simp only [appB_len, u16LEb_len, u32LEb_len, zerosB]; omega)]
  rw [sliceB_appB_left _ (encE_w5 he)
    (by simp : 0 + 1 ≤ (Bytes.mk 1 e.attrs).len)]
  apply sliceB_full
  have h5 := he.2.2.2.2.1
  unfold Bytes.wf
  simp only [pow_one]
  omega

theorem encE_nameLen {e : GdfxEntrySpec} (he : wfEntry e) :
    sliceB (encodeEntry e) 13 1 = ⟨1, e.name.len⟩ := by
  unfold encodeEntry
  rw [sliceB_appB_drop2 (show (13 : Nat) = (u16LEb e.left).len + 11 from rfl)
    (by simp only [appB_len, u16LEb_len, u32LEb_len, zerosB]; omega)]
  rw [sliceB_appB_drop2 (show (11 : Nat) = (u16LEb e.right).len + 9 from rfl)
    (by simp only [appB_len, u16LEb_len, u32LEb_len, zerosB]; omega)]
  rw [sliceB_appB_drop2 (show (9 : Nat) = (u32LEb e.sector).len + 5 from rfl)
    (by simp only [appB_len, u16LEb_len, u32LEb_len, zerosB]; omega)]
  rw [sliceB_appB_drop2 (show (5 : Nat) = (u32LEb e.size).len + 1 from rfl)
    (by simp only [appB_len, u16LEb_len, u32LEb_len, zerosB]; omega)]
  rw [sliceB_appB_drop2 (show (1 : Nat) = (Bytes.mk 1 e.attrs).len + 0 from rfl)
    (by simp only [appB_len, u16LEb_len, u32LEb_len, zerosB]; omega)]
  rw [sliceB_appB_left _ (encE_w6 he)
    (by simp : 0 + 1 ≤ (Bytes.mk 1 e.name.len).len)]
  apply sliceB_full
  have h6 := he.2.2.2.2.2.1
  unfold Bytes.wf
  simp only [pow_one]
  omega

theorem encE_name {e : GdfxEntrySpec} (he : wfEntry e) :
    sliceB (encodeEntry e) 14 e.name.len = e.name := by
  unfold encodeEntry
  rw [sliceB_appB_drop2 (show (14 : Nat) = (u16LEb e.left).len + 12 from rfl)
    (by simp only [appB_len, u16LEb_len, u32LEb_len, zerosB]; omega)]
  rw [sliceB_appB_drop2 (show (12 : Nat) = (u16LEb e.right).len + 10 from rfl)
    (by simp only [appB_len, u16LEb_len, u32LEb_len, zerosB]; omega)]
  rw [sliceB_appB_drop2 (show (10 : Nat) = (u32LEb e.sector).len + 6 from rfl)
    (by simp only [appB_len, u16LEb_len, u32LEb_len, zerosB]; omega)]
  rw [sliceB_appB_drop2 (show (6 : Nat) = (u32LEb e.size).len + 2 from rfl)
    (by simp only [appB_len, u16LEb_len, u32LEb_len, zerosB]; omega)]
  rw [sliceB_appB_drop2 (show (2 : Nat) = (Bytes.mk 1 e.attrs).len + 1 from rfl)
    (by simp only [appB_len, u16LEb_len, u32LEb_len, zerosB]; omega)]
  rw [sliceB_appB_drop2 (show (1 : Nat) = (Bytes.mk 1 e.name.len).len + 0 from rfl)
    (by simp only [appB_len, u16LEb_len, u32LEb_len, zerosB]; omega)]
  rw [sliceB_appB_left _ (zerosB_wf _) (by omega : 0 + e.name.len ≤ e.name.len)]
  exact sliceB_full he.2.2.2.2.2.2

theorem entrySize_ge (e : GdfxEntrySpec) : 14 ≤ entrySize e := by
  unfold entrySize
  omega

theorem gdfxReadEntry_encoded {data : Bytes} {pos : Nat} {e : GdfxEntrySpec}
    (he : wfEntry e) (hp : pos % 4 = 0)
    (hsw : startsWithAt data pos (encodeEntry e)) :
    gdfxReadEntry data pos = some (some (specToEntry e, pos + entrySize e)) := by
  have hlen : (encodeEntry e).len = entrySize e := encodeEntry_len e
  have h14 : 14 + e.name.len ≤ entrySize e := by unfold entrySize; omega
  have r0 : readU16LEAt data pos = some e.left := by
    have h := readExactAt_of_startsWith hsw (by omega : 0 + 2 ≤ (encodeEntry e).len)
    simp only [Nat.add_zero] at h
    unfold readU16LEAt
    rw [h, encE_left he]
    show some (decU16LE (u16LEb e.left)) = _
    rw [decU16LE_u16LEb (by have := he.1; omega)]
  have r1 : readU16LEAt data (pos + 2) = some e.right := by
    have h := readExactAt_of_startsWith hsw (by omega : 2 + 2 ≤ (encodeEntry e).len)
    unfold readU16LEAt
    rw [h, encE_right he]
    show some (decU16LE (u16LEb e.right)) = _
    rw [decU16LE_u16LEb (by have := he.2.1; omega)]
  have r2 : readU32LEAt data (pos + 4) = some e.sector := by
    have h := readExactAt_of_startsWith hsw (by omega : 4 + 4 ≤ (encodeEntry e).len)
    unfold readU32LEAt
    rw [h, encE_sector he]
    show some (decU32LE (u32LEb e.sector)) = _
    rw [decU32LE_u32LEb he.2.2.1]
  have r3 : readU32LEAt data (pos + 8) = some e.size := by
    have h := readExactAt_of_startsWith hsw (by omega : 8 + 4 ≤ (encodeEntry e).len)
    unfold readU32LEAt
    rw [h, encE_size he]
    show some (decU32LE (u32LEb e.size)) = _
    rw [decU32LE_u32LEb he.2.2.2.1]
  have r4 : readU8At data (pos + 12) = some e.attrs := by
    have h := readExactAt_of_startsWith hsw (by omega : 12 + 1 ≤ (encodeEntry e).len)
    unfold readU8At
    rw [h, encE_attrs he]
  have r5 : readU8At data (pos + 13) = some e.name.len := by
    have h := readExactAt_of_startsWith hsw (by omega : 13 + 1 ≤ (encodeEntry e).len)
    unfold readU8At
    rw [h, encE_nameLen he]
  have r6 : readExactAt data (pos + 14) e.name.len = some e.name := by
    have h := readExactAt_of_startsWith hsw (by omega : 14 + e.name.len ≤ (encodeEntry e).len)
    rw [h, encE_name he]
  have hneg : ¬(e.left = 0xFFFF ∨ e.right = 0xFFFF) := by
    have h1 := he.1
    have h2 := he.2.1
    omega
  unfold gdfxReadEntry
  simp only [r0, r1, hneg, if_false, r2, r3, r4, r5, r6, specToEntry,
    Option.some.injEq, Prod.mk.injEq]
  refine ⟨trivial, ?_⟩
  unfold entrySize entryPad
  omega

theorem gdfxReadEntry_sentinel {data : Bytes} {pos : Nat}
    (hsw : startsWithAt data pos SENTINEL4) :
    gdfxReadEntry data pos = some none := by
  have r0 : readU16LEAt data pos = some 0xFFFF := by
    have h := readExactAt_of_startsWith hsw (by decide : 0 + 2 ≤ SENTINEL4.len)
    simp only [Nat.add_zero] at h
    unfold readU16LEAt
    rw [h]
    show some (decU16LE (sliceB SENTINEL4 0 2)) = _
    decide
  have r1 : readU16LEAt data (pos + 2) = some 0xFFFF := by
    have h := readExactAt_of_startsWith hsw (by decide : 2 + 2 ≤ SENTINEL4.len)
    unfold readU16LEAt
    rw [h]
    show some (decU16LE (sliceB SENTINEL4 2 2)) = _
    decide
  unfold gdfxReadEntry
  simp only [r0, r1]
  rw [if_pos (Or.inl trivial)]

theorem sectorUsed_ge (es : List GdfxEntrySpec) : es.length ≤ sectorUsed es := by
  induction es with
  | nil => simp [sectorUsed]
  | cons e rest ih =>
    have h14 := entrySize_ge e
    unfold sectorUsed at *
    simp only [List.map_cons, List.sum_cons, List.length_cons]
    omega

theorem entrySize_mod4 (e : GdfxEntrySpec) : entrySize e % 4 = 0 := by
  unfold entrySize entryPad
  omega

/-- The entry loop of `Dir::read_from_range` parses an encoded entry run,
stops at the terminating sentinel, and returns the run's entries in
order: the data after the sentinel is never looked at. -/
theorem gdfxReadSector_encoded {data : Bytes} :
    ∀ (es : List GdfxEntrySpec) (fuel pos : Nat) (tail : Bytes),
      (∀ e ∈ es, wfEntry e) → es.length < fuel → pos % 4 = 0 → tail.wf →
      startsWithAt data pos (appB (concatB (es.map encodeEntry)) (appB SENTINEL4 tail)) →
      gdfxReadSector data fuel pos = some (es.map specToEntry) := by
  intro es
  induction es with
  | nil =>
    intro fuel pos tail _ hfuel hp htail hsw
    obtain ⟨f, rfl⟩ : ∃ f, fuel = f + 1 := ⟨fuel - 1, by omega⟩
    simp only [List.map_nil, concatB, bEmpty_appB] at hsw
    have hs := (startsWithAt_appB sentinel_wf htail hsw).1
    show gdfxReadSector data (f + 1) pos = some []
    unfold gdfxReadSector
    rw [gdfxReadEntry_sentinel hs]
  | cons e rest ih =>
    intro fuel pos tail hwf hfuel hp htail hsw
    obtain ⟨f, rfl⟩ : ∃ f, fuel = f + 1 := ⟨fuel - 1, by omega⟩
    have he : wfEntry e := hwf e (List.mem_cons_self _ _)
    have hwfr : ∀ x ∈ rest, wfEntry x := fun x hx => hwf x (List.mem_cons_of_mem _ hx)
    have hrwf : (appB (concatB (rest.map encodeEntry)) (appB SENTINEL4 tail)).wf :=
      appB_wf (concatB_wf (by
        intro b hb
        rcases List.mem_map.mp hb with ⟨x, hx, rfl⟩
        exact encodeEntry_wf (hwfr x hx))) (appB_wf sentinel_wf htail)
    simp only [List.map_cons, concatB, appB_assoc] at hsw
    have hsplit := startsWithAt_appB (encodeEntry_wf he) hrwf hsw
    have hrec : gdfxReadSector data f (pos + entrySize e) = some (rest.map specToEntry) := by
      apply ih f (pos + entrySize e) tail hwfr (by simpa using hfuel)
        (by have := entrySize_mod4 e; omega) htail
      have h2 := hsplit.2
      rwa [encodeEntry_len e] at h2
    show gdfxReadSector data (f + 1) pos = _
    unfold gdfxReadSector
    rw [gdfxReadEntry_encoded he hp hsplit.1]
    simp only [hrec, List.map_cons]

/-- The directory entries a well-formed encoded directory describes, in
binary declaration order across its sectors. -/
def dirEntriesSpec : List (List GdfxEntrySpec) → List GdfxDirEntry
  | [] => []
  | es :: rest => es.map specToEntry ++ dirEntriesSpec rest

theorem gdfxReadSectors_encoded {data : Bytes} :
    ∀ (sectors : List (List GdfxEntrySpec)) (fuel off : Nat),
      wfDir sectors → sectors.length < fuel → off % 4 = 0 →
      startsWithAt data off (encodeDir sectors) →
      gdfxReadSectors data fuel off (2048 * sectors.length) = some (dirEntriesSpec sectors) := by
  intro sectors
  induction sectors with
  | nil =>
    intro fuel off _ hfuel _ _
    obtain ⟨f, rfl⟩ : ∃ f, fuel = f + 1 := ⟨fuel - 1, by omega⟩
    show gdfxReadSectors data (f + 1) off (2048 * 0) = some []
    unfold gdfxReadSectors
    rw [if_pos (by omega)]
  | cons es rest ih =>
    intro fuel off hwf hfuel hoff hsw
    obtain ⟨f, rfl⟩ : ∃ f, fuel = f + 1 := ⟨fuel - 1, by omega⟩
    have hes : wfSector es := hwf es (List.mem_cons_self _ _)
    have hwfr : wfDir rest := fun x hx => hwf x (List.mem_cons_of_mem _ hx)
    have hdir : encodeDir (es :: rest) = appB (encodeSector es) (encodeDir rest) := rfl
    rw [hdir] at hsw
    have hsplit := startsWithAt_appB (encodeSector_wf hes) (encodeDir_wf hwfr) hsw
    have hs1 := hsplit.1
    have hs2 := hsplit.2
    rw [encodeSector_len hes] at hs2
    have hdlen : 2048 ≤ data.len := by
      have h1 := hsw.1
      rw [appB_len, encodeSector_len hes] at h1
      omega
    have hsec : gdfxReadSector data (data.len + 1) off = some (es.map specToEntry) := by
      apply gdfxReadSector_encoded es (data.len + 1) off
        (zerosB (2048 - sectorUsed es - 4)) hes.1 ?_ hoff (zerosB_wf _)
      · exact hs1
      · have := sectorUsed_ge es
        have := hes.2
        omega
    have hrec : gdfxReadSectors data f (off + 2048) (2048 * rest.length)
        = some (dirEntriesSpec rest) :=
      ih f (off + 2048) hwfr (by simpa using hfuel) (by omega) hs2
    show gdfxReadSectors data (f + 1) off (2048 * (rest.length + 1)) = _
    unfold gdfxReadSectors
    rw [if_neg (by omega : ¬2048 * (rest.length + 1) = 0)]
    rw [show 2048 * (rest.length + 1) - 2048 = 2048 * rest.length from by ring_nf; omega]
    simp only [hsec, hrec, dirEntriesSpec]

/-- C1: for a well-formed multi-sector directory encoding (each sector's
entry run sentinel-terminated and zero-padded to 2048 bytes), the modern
reader `Dir::read_from_range` continues at the next sector after each
sentinel and returns the entries of every sector of the extent, in binary
declaration order. -/
theorem gdfx_dir_resumes_next_sector {data : Bytes} {sectors : List (List GdfxEntrySpec)}
    {off : Nat} (hwf : wfDir sectors) (hmulti : 2 ≤ sectors.length) (hoff : off % 4 = 0)
    (hsw : startsWithAt data off (encodeDir sectors)) :
    gdfxDirReadFromRange data off (2048 * sectors.length) = some (dirEntriesSpec sectors) := by
  unfold gdfxDirReadFromRange
  exact gdfxReadSectors_encoded sectors (2048 * sectors.length + 1) off hwf (by omega) hoff hsw

/-- A two-sector directory with one entry per sector: entry "AB" in
sector 0 of the table, entry "CD" in sector 1. -/
def cexDirSectors : List (List GdfxEntrySpec) :=
  [[⟨1, 2, 5, 100, 32, ofList [65, 66]⟩], [⟨3, 4, 6, 200, 32, ofList [67, 68]⟩]]

def cexDirData : Bytes := encodeDir cexDirSectors

set_option exponentiation.threshold 2000000 in
set_option maxHeartbeats 4000000 in
set_option maxRecDepth 4000 in
/-- C1 counterexample: on the same two-sector directory extent, the legacy
`DirectoryTable::read` (the reader the conversion binaries use) stops at
the first sector's sentinel and returns only 1 entry, while
`Dir::read_from_range` continues at the next sector and returns both. -/
theorem legacy_dir_stops_at_first_sentinel_cex :
    (legacyDirectoryTableRead cexDirData 0 0 4096 64).map List.length = some 1
    ∧ (gdfxDirReadFromRange cexDirData 0 4096).map List.length = some 2 := by
  decide

set_option exponentiation.threshold 2000000 in
set_option maxHeartbeats 4000000 in
set_option maxRecDepth 4000 in
/-- Witness for C1 at the concrete two-sector directory. -/
theorem gdfx_dir_resumes_next_sector_witness :
    (wfDir cexDirSectors ∧ 2 ≤ cexDirSectors.length ∧ (0 : Nat) % 4 = 0
      ∧ startsWithAt cexDirData 0 (encodeDir cexDirSectors))
    ∧ gdfxDirReadFromRange cexDirData 0 (2048 * cexDirSectors.length)
        = some (dirEntriesSpec cexDirSectors) :=
  ⟨⟨by decide, by decide, by decide, by decide⟩,
    gdfx_dir_resumes_next_sector (by decide) (by decide) (by decide) (by decide)⟩
